import Mathlib

/-!
Verification of the Skill Package Sync Engine (cc-switch-cli).

This file shallowly embeds the core of src/src-tauri/src/services/skill.rs:
the skills index data model, the persistence collaborator, the filesystem
state (canonical SSOT store plus per-application mirror roots), and the
operations load_index / save_index / migrate_ssot_if_pending / install /
toggle_app / import_from_apps / scan_unmanaged / parse_skill_metadata_static.

Modelling conventions:
- Rust HashMap values are modelled as association lists; lookup returns the
  first binding, insertion replaces the first binding in place or appends.
- The external YAML front-matter parser (serde_yaml) is a parameter
  yp : String -> Option SkillMetadata of every operation that parses metadata.
- Filesystem io faults (permissions, disk) are below the abstraction level;
  state-level failures (missing SSOT entry, copying a non-directory) are
  modelled faithfully.
- Unicode lowercasing is modelled as ASCII lowercasing; the claims only
  involve ASCII directory names.
-/

-- ===========================================================================
-- String helpers (ASCII case folding, trimming, Rust splitn / starts_with)
-- ===========================================================================

/-- ASCII lowercase of a character, as used to model Rust to_lowercase and
eq_ignore_ascii_case on the ASCII names the engine manipulates. -/
def lowerChar (c : Char) : Char :=
  if 'A' ≤ c ∧ c ≤ 'Z' then Char.ofNat (c.toNat + 32) else c

/-- ASCII lowercase of a string. -/
def asciiLower (s : String) : String :=
  String.mk (s.data.map lowerChar)

/-- Rust str::eq_ignore_ascii_case. -/
def eqIgnoreAsciiCase (s t : String) : Bool :=
  asciiLower s == asciiLower t

/-- ASCII whitespace test used to model Rust str::trim. -/
def isWsChar (c : Char) : Bool :=
  c == ' ' || c == '\t' || c == '\n' || c == '\r'

/-- Rust str::trim (modelled over ASCII whitespace). -/
def trimAscii (s : String) : String :=
  String.mk (((s.data.dropWhile isWsChar).reverse.dropWhile isWsChar).reverse)

/-- Rust content.trim_start_matches of the byte-order mark: drop every
leading U+FEFF character. -/
def stripBomStr (s : String) : String :=
  String.mk (s.data.dropWhile (fun c => c == Char.ofNat 0xFEFF))

/-- Split a character list at the first occurrence of the separator,
returning the part before it and the part after it. -/
def findSepSplit (sep : List Char) : List Char → Option (List Char × List Char)
  | [] => none
  | c :: rest =>
    if sep.isPrefixOf (c :: rest) then some ([], (c :: rest).drop sep.length)
    else
      match findSepSplit sep rest with
      | some (pre, post) => some (c :: pre, post)
      | none => none

/-- Rust str::splitn over character lists: at most n parts, the last part
holding the unsplit remainder. -/
def splitnChars (n : Nat) (sep : List Char) (s : List Char) : List (List Char) :=
  match n with
  | 0 => []
  | 1 => [s]
  | Nat.succ m =>
    match findSepSplit sep s with
    | none => [s]
    | some (pre, post) => pre :: splitnChars m sep post

/-- Rust str::splitn on strings. -/
def splitnStr (n : Nat) (sep s : String) : List String :=
  (splitnChars n sep.data s.data).map String.mk

/-- Split a character list on slashes (model of str::split for paths). -/
def splitSlash : List Char → List (List Char)
  | [] => [[]]
  | c :: rest =>
    if c = '/' then [] :: splitSlash rest
    else
      match splitSlash rest with
      | [] => [[c]]
      | p :: ps => (c :: p) :: ps

/-- Rust str::starts_with on strings (structural, over character lists). -/
def strStarts (pre s : String) : Bool :=
  pre.data.isPrefixOf s.data

/-- Rust str::starts_with of the dot character. -/
def startsDot (s : String) : Bool :=
  match s.data with
  | c :: _ => c == '.'
  | [] => false

/-- Rust Path::file_name with unwrap_or fallback to the whole string, as used
by install to derive the canonical install name (last path segment). -/
def lastSegment (s : String) : String :=
  let parts := ((splitSlash s.data).map String.mk).filter (fun p => p != "" && p != ".")
  match parts.getLast? with
  | none => s
  | some last => if last == ".." then s else last

-- ===========================================================================
-- Association-list maps (model of HashMap)
-- ===========================================================================

/-- First binding of a key in an association list (HashMap::get). -/
def lookupA {α : Type} : List (String × α) → String → Option α
  | [], _ => none
  | (k, v) :: xs, key => if k = key then some v else lookupA xs key

/-- Replace the first binding of a key in place, or append a new binding
(HashMap::insert). -/
def insertA {α : Type} : List (String × α) → String → α → List (String × α)
  | [], key, v => [(key, v)]
  | (k, w) :: xs, key, v =>
    if k = key then (key, v) :: xs else (k, w) :: insertA xs key v

/-- Remove every binding of a key (HashMap::remove / filesystem delete). -/
def removeA {α : Type} (l : List (String × α)) (key : String) : List (String × α) :=
  l.filter (fun p => p.1 ≠ key)

/-- Keys of an association list, in order. -/
def keysA {α : Type} (l : List (String × α)) : List String :=
  l.map Prod.fst

-- ===========================================================================
-- Data model (skill.rs types; SkillApps and InstalledSkill live in
-- app_config.rs, which is not under src/)
-- ===========================================================================

/-- Consumer application identifier (AppType in app_config.rs). -/
inductive AppType where
  | claude
  | codex
  | gemini
deriving DecidableEq, Repr

/-- Modelled from the spec: per-application enable flags of an installed
package, apps: \x7bappA: bool, appB: bool, appC: bool\x7d. The concrete type
SkillApps is declared in app_config.rs, which is not included under src/;
its operations (is_enabled_for, set_enabled_for, merge_enabled, only,
default) are reconstructed from the spec and from their uses in skill.rs
and store.rs. -/
structure SkillApps where
  claude : Bool
  codex : Bool
  gemini : Bool
deriving DecidableEq, Repr

/-- All-disabled flags (SkillApps::default). -/
def SkillApps.empty : SkillApps := ⟨false, false, false⟩

/-- Whether the flags enable the given application. -/
def SkillApps.is_enabled_for (a : SkillApps) (app : AppType) : Bool :=
  match app with
  | .claude => a.claude
  | .codex => a.codex
  | .gemini => a.gemini

/-- Set the flag of one application. -/
def SkillApps.set_enabled_for (a : SkillApps) (app : AppType) (v : Bool) : SkillApps :=
  match app with
  | .claude => { a with claude := v }
  | .codex => { a with codex := v }
  | .gemini => { a with gemini := v }

/-- Pointwise disjunction of flags (SkillApps::merge_enabled: flags are
merged, never removed). -/
def SkillApps.merge_enabled (a b : SkillApps) : SkillApps :=
  ⟨a.claude || b.claude, a.codex || b.codex, a.gemini || b.gemini⟩

/-- Flags enabling exactly one application (SkillApps::only). -/
def SkillApps.only (app : AppType) : SkillApps :=
  SkillApps.empty.set_enabled_for app true

/-- Skill repository configuration (SkillRepo in skill.rs). -/
structure SkillRepo where
  owner : String
  name : String
  branch : String
  enabled : Bool
deriving DecidableEq, Repr

/-- Skill sync method (SyncMethod in skill.rs). -/
inductive SyncMethod where
  | auto
  | symlink
  | copy
deriving DecidableEq, Repr

/-- Modelled from the spec: the installed-package record, InstalledPackage =
\x7bid, name, description?, directory, readmeUrl?, repoOwner?, repoName?,
repoBranch?, apps, installedAt\x7d. The concrete type InstalledSkill is
declared in app_config.rs, not included under src/; fields are reconstructed
from the spec and from every construction site in skill.rs and store.rs. -/
structure InstalledSkill where
  id : String
  name : String
  description : Option String
  directory : String
  readme_url : Option String
  repo_owner : Option String
  repo_name : Option String
  repo_branch : Option String
  apps : SkillApps
  installed_at : Int
deriving DecidableEq, Repr

/-- Discoverable skill from remote discovery (DiscoverableSkill in skill.rs). -/
structure DiscoverableSkill where
  key : String
  name : String
  description : String
  directory : String
  readme_url : Option String
  repo_owner : String
  repo_name : String
  repo_branch : String
deriving DecidableEq, Repr

/-- Modelled from the spec: UnmanagedPackage = \x7bdirectory, name,
description?, foundIn: [appId]\x7d. The concrete type UnmanagedSkill is
declared in app_config.rs, not included under src/. -/
structure UnmanagedSkill where
  directory : String
  name : String
  description : Option String
  found_in : List String
deriving DecidableEq, Repr

/-- Skill metadata extracted from SKILL.md YAML front matter. -/
structure SkillMetadata where
  name : Option String
  description : Option String
deriving DecidableEq, Repr

/-- The skills index (SkillsIndex in skill.rs). -/
structure SkillsIndex where
  version : Nat
  sync_method : SyncMethod
  repos : List SkillRepo
  skills : List (String × InstalledSkill)
  ssot_migration_pending : Bool
deriving DecidableEq, Repr

-- ===========================================================================
-- Persistence collaborator (database.rs and settings.rs are not under src/)
-- ===========================================================================

/-- Modelled from the spec: the persistence collaborator of section 6,
getRepos/saveRepo, getInstalledPackages/savePackage/deletePackage,
getSetting/setSetting, plus the sync-method preference owned by the
settings collaborator. Package records are keyed by id, repositories by
(owner, name). database.rs and settings.rs are not included under src/. -/
structure DB where
  repos : List SkillRepo
  skills : List (String × InstalledSkill)
  settings : List (String × String)
  syncMethod : SyncMethod
deriving DecidableEq, Repr

/-- Default repository list (SkillStore::default in skill.rs). -/
def defaultSkillRepos : List SkillRepo :=
  [ ⟨"anthropics", "skills", "main", true⟩,
    ⟨"ComposioHQ", "awesome-claude-skills", "master", true⟩,
    ⟨"cexll", "myclaude", "master", true⟩,
    ⟨"JimLiu", "baoyu-skills", "main", true⟩ ]

/-- Append a repository when no stored repository has its (owner, name) key. -/
def insertMissingRepo (l : List SkillRepo) (r : SkillRepo) : List SkillRepo :=
  if l.any (fun x => x.owner == r.owner && x.name == r.name) then l
  else l ++ [r]

/-- Modelled from the spec and the source comment at the call site in
load_index: ensure default repos exist, insert-missing only
(Database::init_default_skill_repos, database.rs not under src/). -/
def initDefaultSkillRepos (db : DB) : DB :=
  { db with repos := defaultSkillRepos.foldl insertMissingRepo db.repos }

/-- Upsert a repository by (owner, name) key (Database::save_skill_repo). -/
def saveSkillRepo : List SkillRepo → SkillRepo → List SkillRepo
  | [], r => [r]
  | x :: xs, r =>
    if x.owner = r.owner ∧ x.name = r.name then r :: xs
    else x :: saveSkillRepo xs r

/-- Upsert a package record by id (Database::save_skill). -/
def saveSkill (db : DB) (s : InstalledSkill) : DB :=
  { db with skills := insertA db.skills s.id s }

/-- Set a settings key (Database::set_setting). -/
def setSetting (db : DB) (key v : String) : DB :=
  { db with settings := insertA db.settings key v }

/-- Truthiness of the persisted migration-pending setting, as read by
load_index: some v with v = "true" or v = "1". -/
def pendingFlag (db : DB) : Bool :=
  match lookupA db.settings "skills_ssot_migration_pending" with
  | some v => v == "true" || v == "1"
  | none => false

/-- SkillService::load_index: ensure default repos, read the repository
list, re-key the package records by directory, read the sync method and
the migration-pending setting. Returns the index together with the
persistence state (default-repo insertion mutates it). -/
def load_index (db : DB) : SkillsIndex × DB :=
  let db1 := initDefaultSkillRepos db
  ({ version := 1
     sync_method := db1.syncMethod
     repos := db1.repos
     skills := (db1.skills.map (fun p => (p.2.directory, p.2))).foldl
       (fun m p => insertA m p.1 p.2) []
     ssot_migration_pending := pendingFlag db1 }, db1)

/-- SkillService::save_index: write the sync method, upsert every
repository, upsert every package record. Nothing is deleted, and the
migration-pending setting is not written. -/
def save_index (index : SkillsIndex) (db : DB) : DB :=
  let db1 := { db with syncMethod := index.sync_method }
  let db2 := index.repos.foldl (fun d r => { d with repos := saveSkillRepo d.repos r }) db1
  index.skills.foldl (fun d p => saveSkill d p.2) db2

-- ===========================================================================
-- Filesystem state: canonical SSOT store and per-application mirror roots
-- ===========================================================================

/-- Contents of a package directory. Only the top-level files matter to the
engine (the SKILL.md manifest); recursive copies move the whole value, so
deeper structure is carried opaquely by value identity. -/
structure Dir where
  files : List (String × String)
deriving DecidableEq, Repr

/-- An entry of an application mirror root: a real directory, a plain file,
or a symbolic link whose target is a canonical-store directory name. -/
inductive FsEntry where
  | dirE (d : Dir)
  | fileE (content : String)
  | symlinkE (target : String)
deriving DecidableEq, Repr

/-- Filesystem state: the canonical store (SSOT) maps directory names to
directory contents; each application mirror root is either absent (none) or
a list of named entries. -/
structure FS where
  ssot : List (String × Dir)
  claudeRoot : Option (List (String × FsEntry))
  codexRoot : Option (List (String × FsEntry))
  geminiRoot : Option (List (String × FsEntry))
deriving DecidableEq, Repr

/-- Mirror root of an application (get_app_skills_dir plus existence). -/
def appRoot (fs : FS) : AppType → Option (List (String × FsEntry))
  | .claude => fs.claudeRoot
  | .codex => fs.codexRoot
  | .gemini => fs.geminiRoot

/-- Replace the mirror root of an application. -/
def setAppRoot (fs : FS) (app : AppType) (l : List (String × FsEntry)) : FS :=
  match app with
  | .claude => { fs with claudeRoot := some l }
  | .codex => { fs with codexRoot := some l }
  | .gemini => { fs with geminiRoot := some l }

/-- Rust Path::exists on a mirror entry: true for directories and files,
and for a symlink only when its target resolves in the canonical store. -/
def entryExists (fs : FS) : FsEntry → Bool
  | .dirE _ => true
  | .fileE _ => true
  | .symlinkE t => (lookupA fs.ssot t).isSome

/-- View a mirror entry as a directory, following symlinks into the
canonical store (Rust Path::is_dir / read_dir-through-symlink). -/
def entryToDir (fs : FS) : FsEntry → Option Dir
  | .dirE d => some d
  | .fileE _ => none
  | .symlinkE t => lookupA fs.ssot t

/-- The engine error taxonomy, restricted to the errors reachable in the
model (AppError variants raised in skill.rs). -/
inductive Err where
  | notFound (what : String)
  | directoryConflict (directory existingRepo newRepo : String)
  | skillDirNotFound (directory : String)
  | ssotMissing (directory : String)
  | ioError
  | downloadFailed (hint : String)
deriving DecidableEq, Repr

/-- Decidable equality for results, used to evaluate concrete runs. -/
instance {ε α : Type} [DecidableEq ε] [DecidableEq α] : DecidableEq (Except ε α) :=
  fun a b =>
    match a, b with
    | .ok x, .ok y =>
      if h : x = y then .isTrue (by rw [h]) else .isFalse (by intro he; cases he; exact h rfl)
    | .error x, .error y =>
      if h : x = y then .isTrue (by rw [h]) else .isFalse (by intro he; cases he; exact h rfl)
    | .ok _, .error _ => .isFalse (by intro he; cases he)
    | .error _, .ok _ => .isFalse (by intro he; cases he)

/-- Copy a mirror entry into the canonical store under the given name
(copy_dir_recursive from an application mirror). Copying a plain file
fails after create_dir_all has already produced an empty destination
directory, mirroring fs::read_dir failing on a non-directory source. -/
def copyEntryIntoSsot (fs : FS) (name : String) (e : FsEntry) : FS × Option Err :=
  match entryToDir fs e with
  | some d => ({ fs with ssot := insertA fs.ssot name d }, none)
  | none => ({ fs with ssot := insertA fs.ssot name ⟨[]⟩ }, some .ioError)

/-- Mirror entry produced by materialization for a given sync method:
auto prefers a symlink (the fallback copy is unreachable in the model,
where symlink creation does not fault), symlink links, copy copies. -/
def syncEntryFor (method : SyncMethod) (directory : String) (d : Dir) : FsEntry :=
  match method with
  | .auto => .symlinkE directory
  | .symlink => .symlinkE directory
  | .copy => .dirE d

/-- SkillService::sync_to_app_dir: error when the canonical store lacks the
directory; otherwise ensure the mirror root exists, remove any existing
destination entry (symlink-aware), and materialize per the sync method. -/
def sync_to_app_dir (fs : FS) (directory : String) (app : AppType)
    (method : SyncMethod) : Except Err FS :=
  match lookupA fs.ssot directory with
  | none => .error (.ssotMissing directory)
  | some d =>
    let root := (appRoot fs app).getD []
    let root1 := removeA root directory
    .ok (setAppRoot fs app (root1 ++ [(directory, syncEntryFor method directory d)]))

/-- SkillService::remove_from_app: delete the mirror entry when present;
absence (of the entry or of the whole mirror root) is not an error. -/
def remove_from_app (fs : FS) (directory : String) (app : AppType) : FS :=
  match appRoot fs app with
  | none => fs
  | some entries => setAppRoot fs app (removeA entries directory)

-- ===========================================================================
-- Metadata parser (parse_skill_metadata_static)
-- ===========================================================================

/-- SkillService::parse_skill_metadata_static on already-read content: strip
the BOM, split on "---" into at most three parts; fewer than three parts,
or a front-matter block the YAML parser rejects, yield \x7bnone, none\x7d.
The function is total: no error aborts the caller. The external YAML parser
is the parameter yp. -/
def parse_skill_metadata (yp : String → Option SkillMetadata) (content : String) :
    SkillMetadata :=
  let c := stripBomStr content
  let parts := splitnStr 3 "---" c
  if parts.length < 3 then ⟨none, none⟩
  else
    match yp (trimAscii (parts.getD 1 "")) with
    | some m => m
    | none => ⟨none, none⟩

/-- YAML parser instance that rejects every input, used for concrete runs
whose manifests carry no well-formed front matter. -/
def noYaml : String → Option SkillMetadata := fun _ => none

-- ===========================================================================
-- Migration state machine (migrate_ssot_if_pending)
-- ===========================================================================

/-- Candidate applications for locating a tracked package during migration:
apps where the record is enabled, falling back to all three. -/
def enabledCandidates (apps : SkillApps) : List AppType :=
  let c := [AppType.claude, AppType.codex, AppType.gemini].filter
    (fun a => apps.is_enabled_for a)
  if c.isEmpty then [AppType.claude, AppType.codex, AppType.gemini] else c

/-- First candidate application whose mirror root holds an existing entry
of the given name (the source search of the non-empty migration branch). -/
def findSourceEntry (fs : FS) (name : String) : List AppType → Option FsEntry
  | [] => none
  | a :: rest =>
    match appRoot fs a with
    | none => findSourceEntry fs name rest
    | some entries =>
      match lookupA entries name with
      | some e => if entryExists fs e then some e else findSourceEntry fs name rest
      | none => findSourceEntry fs name rest

/-- Metadata backfill after a successful migration copy: when the record
name is blank or equals its directory up to ASCII case, take the manifest
name; fill a missing description from the manifest. -/
def backfillFrom (yp : String → Option SkillMetadata) (d : Dir)
    (record : InstalledSkill) : InstalledSkill :=
  match lookupA d.files "SKILL.md" with
  | none => record
  | some content =>
    let meta := parse_skill_metadata yp content
    let record1 :=
      if trimAscii record.name = "" ∨ eqIgnoreAsciiCase record.name record.directory then
        { record with name := meta.name.getD record.directory }
      else record
    if record1.description = none then { record1 with description := meta.description }
    else record1

/-- Per-record loop of the non-empty migration branch: for each tracked
record whose canonical-store copy is missing, search the mirrors; copy the
first existing source and backfill metadata; a failing copy aborts the
loop (the Rust question-mark operator), leaving later records unprocessed;
a missing source is only logged. Returns the records (keys never change),
the filesystem, the created count, and the error if the loop aborted. -/
def migrateRecords (yp : String → Option SkillMetadata) :
    FS → List (String × InstalledSkill) →
    List (String × InstalledSkill) × FS × Nat × Option Err
  | fs, [] => ([], fs, 0, none)
  | fs, (dirName, record) :: rest =>
    if (lookupA fs.ssot dirName).isSome then
      let r := migrateRecords yp fs rest
      ((dirName, record) :: r.1, r.2)
    else
      match findSourceEntry fs dirName (enabledCandidates record.apps) with
      | none =>
        let r := migrateRecords yp fs rest
        ((dirName, record) :: r.1, r.2)
      | some e =>
        match copyEntryIntoSsot fs dirName e with
        | (fs1, some err) => ((dirName, record) :: rest, fs1, 0, some err)
        | (fs1, none) =>
          let d := (lookupA fs1.ssot dirName).getD ⟨[]⟩
          let record1 := backfillFrom yp d record
          let r := migrateRecords yp fs1 rest
          ((dirName, record1) :: r.1, r.2.1, r.2.2.1 + 1, r.2.2.2)

/-- Non-empty branch of migrate_ssot_if_pending: populate the canonical
store for tracked records best-effort, then clear the pending flag, persist
the setting and save the index; a copy error aborts before the flag is
cleared. -/
def migrateNonEmpty (yp : String → Option SkillMetadata) (index : SkillsIndex)
    (db : DB) (fs : FS) : (SkillsIndex × DB × FS) × Except Err Nat :=
  match migrateRecords yp fs index.skills with
  | (skills1, fs1, _, some e) =>
    (({ index with skills := skills1 }, db, fs1), .error e)
  | (skills1, fs1, created, none) =>
    let index1 := { index with skills := skills1, ssot_migration_pending := false }
    let db1 := setSetting db "skills_ssot_migration_pending" "false"
    let db2 := save_index index1 db1
    ((index1, db2, fs1), .ok created)

/-- Discovery accumulator of the empty migration branch: directory name to
merged per-app flags, in first-seen order. -/
def discoverStep (app : AppType) (acc : List (String × SkillApps)) (name : String) :
    List (String × SkillApps) :=
  match lookupA acc name with
  | some apps => insertA acc name (apps.set_enabled_for app true)
  | none => acc ++ [(name, SkillApps.empty.set_enabled_for app true)]

/-- One application scan of the empty migration branch: every non-dot
directory entry is copied into the canonical store when absent and recorded
in the discovery accumulator. -/
def discoverApp (fs : FS) (acc : List (String × SkillApps)) (app : AppType) :
    FS × List (String × SkillApps) :=
  match appRoot fs app with
  | none => (fs, acc)
  | some entries =>
    entries.foldl
      (fun st p =>
        match entryToDir st.1 p.2 with
        | none => st
        | some d =>
          if startsDot p.1 then st
          else
            let fs1 :=
              if (lookupA st.1.ssot p.1).isSome then st.1
              else { st.1 with ssot := insertA st.1.ssot p.1 d }
            (fs1, discoverStep app st.2 p.1))
      (fs, acc)

/-- Record construction of the empty migration branch: one record per
discovered directory, metadata parsed from the canonical-store copy,
merging flags into any existing record. -/
def upsertDiscovered (yp : String → Option SkillMetadata) (fs : FS) (now : Int)
    (st : List (String × InstalledSkill) × Nat) (p : String × SkillApps) :
    List (String × InstalledSkill) × Nat :=
  let directory := p.1
  let nmdesc :=
    match lookupA fs.ssot directory with
    | some d =>
      match lookupA d.files "SKILL.md" with
      | some content =>
        let meta := parse_skill_metadata yp content
        (meta.name.getD directory, meta.description)
      | none => (directory, none)
    | none => (directory, none)
  match lookupA st.1 directory with
  | some existing =>
    let e1 := { existing with apps := existing.apps.merge_enabled p.2 }
    let e2 := if trimAscii e1.name = "" then { e1 with name := nmdesc.1 } else e1
    let e3 := if e2.description = none then { e2 with description := nmdesc.2 } else e2
    (insertA st.1 directory e3, st.2)
  | none =>
    (st.1 ++ [(directory,
      { id := "local:" ++ directory
        name := nmdesc.1
        description := nmdesc.2
        directory := directory
        readme_url := none
        repo_owner := none
        repo_name := none
        repo_branch := none
        apps := p.2
        installed_at := now })], st.2 + 1)

/-- Empty branch of migrate_ssot_if_pending: scan all three mirrors, copy
every non-dot directory into the canonical store when absent, build one
record per distinct directory merging per-app flags, clear the pending
flag, persist the setting and save the index. -/
def migrateEmpty (yp : String → Option SkillMetadata) (now : Int)
    (index : SkillsIndex) (db : DB) (fs : FS) :
    (SkillsIndex × DB × FS) × Except Err Nat :=
  let scanned := [AppType.claude, AppType.codex, AppType.gemini].foldl
    (fun st app => discoverApp st.1 st.2 app) (fs, [])
  let fs1 := scanned.1
  let built := scanned.2.foldl (upsertDiscovered yp fs1 now) (index.skills, 0)
  let index1 := { index with skills := built.1, ssot_migration_pending := false }
  let db1 := setSetting db "skills_ssot_migration_pending" "false"
  let db2 := save_index index1 db1
  ((index1, db2, fs1), .ok built.2)

/-- SkillService::migrate_ssot_if_pending: return immediately unless the
pending flag is set; with tracked records run the best-effort populate
branch, otherwise the mirror-discovery branch. The index, persistence
state and filesystem are threaded through even when the call errors. -/
def migrate_ssot_if_pending (yp : String → Option SkillMetadata) (now : Int)
    (index : SkillsIndex) (db : DB) (fs : FS) :
    (SkillsIndex × DB × FS) × Except Err Nat :=
  if index.ssot_migration_pending = false then ((index, db, fs), .ok 0)
  else if index.skills.isEmpty then migrateEmpty yp now index db fs
  else migrateNonEmpty yp index db fs

-- ===========================================================================
-- Resolution and toggle (toggle_app), with an event trace for ordering
-- ===========================================================================

/-- SkillService::resolve_directory_from_input: trim; empty input resolves
to nothing; exact directory match, then case-insensitive directory match,
then case-insensitive id match. -/
def resolve_directory_from_input (index : SkillsIndex) (input : String) :
    Option String :=
  let trimmed := trimAscii input
  if trimmed = "" then none
  else if (lookupA index.skills trimmed).isSome then some trimmed
  else
    let tl := asciiLower trimmed
    match index.skills.find? (fun p => asciiLower p.1 == tl) with
    | some p => some p.1
    | none =>
      match index.skills.find? (fun p => eqIgnoreAsciiCase p.2.id trimmed) with
      | some p => some p.1
      | none => none

/-- Observable events of a toggle call, in execution order: the mirror
filesystem change and the index persist. -/
inductive SyncEv where
  | fsSync
  | fsRemove
  | persistIndex
deriving DecidableEq, Repr

/-- SkillService::toggle_app: load the index, resolve the input, flip the
per-app flag in memory, perform the mirror filesystem operation, and only
then persist the index; a filesystem failure returns before the persist.
The trace records the filesystem change and the persist in order. -/
def toggle_app (input : String) (app : AppType) (enabled : Bool) (db : DB)
    (fs : FS) : (DB × FS × List SyncEv) × Except Err Unit :=
  let p := load_index db
  let index := p.1
  let db1 := p.2
  match resolve_directory_from_input index input with
  | none => ((db1, fs, []), .error (.notFound input))
  | some dir =>
    match lookupA index.skills dir with
    | none => ((db1, fs, []), .error (.notFound dir))
    | some record =>
      let record1 := { record with apps := record.apps.set_enabled_for app enabled }
      let index1 := { index with skills := insertA index.skills dir record1 }
      if enabled then
        match sync_to_app_dir fs record1.directory app index1.sync_method with
        | .error e => ((db1, fs, []), .error e)
        | .ok fs1 =>
          let db2 := save_index index1 db1
          ((db2, fs1, [.fsSync, .persistIndex]), .ok ())
      else
        let fs1 := remove_from_app fs record1.directory app
        let db2 := save_index index1 db1
        ((db2, fs1, [.fsRemove, .persistIndex]), .ok ())

-- ===========================================================================
-- Install (install), from the resolved discoverable skill onward
-- ===========================================================================

/-- Record built by a first-time install: only the requesting app enabled,
repo association from the resolved discoverable skill, blank description
normalized to none. -/
def freshInstallRecord (d : DiscoverableSkill) (app : AppType) (now : Int)
    (install_name : String) : InstalledSkill :=
  { id := d.key
    name := d.name
    description := if trimAscii d.description = "" then none else some d.description
    directory := install_name
    readme_url := d.readme_url
    repo_owner := some d.repo_owner
    repo_name := some d.repo_name
    repo_branch := some d.repo_branch
    apps := SkillApps.only app
    installed_at := now }

def finish_install (d : DiscoverableSkill) (app : AppType) (now : Int)
    (install_name : String) (index : SkillsIndex) (db : DB) (fs : FS) :
    (SkillsIndex × DB × FS) × Except Err InstalledSkill :=
  let installed : InstalledSkill := freshInstallRecord d app now install_name
  let index1 := { index with skills := insertA index.skills install_name installed }
  let db1 := save_index index1 db
  match sync_to_app_dir fs install_name app index1.sync_method with
  | .error e => ((index1, db1, fs), .error e)
  | .ok fs1 => ((index1, db1, fs1), .ok installed)

/-- Lines 753-869 of SkillService::install, after the index is loaded,
migration has run and the spec is resolved to a discoverable skill: derive
the canonical install name; an existing record from a different repository
with any repo association or a local id is a directory conflict; an
existing same-repo (or unassociated) record is an idempotent re-install
that only enables the requesting app; otherwise a first-time install,
downloading only when the canonical-store directory is absent. The network
fetch combined with find_skill_dir_in_repo is the parameter fetchFind. -/
def install_resolved (d : DiscoverableSkill) (fetchFind : Except Err (Option Dir))
    (app : AppType) (now : Int) (index : SkillsIndex) (db : DB) (fs : FS) :
    (SkillsIndex × DB × FS) × Except Err InstalledSkill :=
  let install_name := lastSegment d.directory
  match lookupA index.skills install_name with
  | some existing =>
    if (existing.repo_owner ≠ some d.repo_owner ∨ existing.repo_name ≠ some d.repo_name)
        ∧ (existing.repo_owner.isSome = true ∨ existing.repo_name.isSome = true
            ∨ strStarts "local:" existing.id = true) then
      ((index, db, fs),
        .error (.directoryConflict install_name
          (existing.repo_owner.getD "unknown" ++ "/" ++ existing.repo_name.getD "unknown")
          (d.repo_owner ++ "/" ++ d.repo_name)))
    else
      let updated := { existing with apps := existing.apps.set_enabled_for app true }
      let index1 := { index with skills := insertA index.skills install_name updated }
      let db1 := save_index index1 db
      match sync_to_app_dir fs install_name app index1.sync_method with
      | .error e => ((index1, db1, fs), .error e)
      | .ok fs1 => ((index1, db1, fs1), .ok updated)
  | none =>
    match lookupA fs.ssot install_name with
    | some _ => finish_install d app now install_name index db fs
    | none =>
      match fetchFind with
      | .error e => ((index, db, fs), .error e)
      | .ok none => ((index, db, fs), .error (.skillDirNotFound install_name))
      | .ok (some src) =>
        finish_install d app now install_name index db
          { fs with ssot := insertA fs.ssot install_name src }

/-- SkillService::install: load the index, run migration when pending, then
proceed on the resolved discoverable skill. Spec trimming and network
resolution happen upstream of this entry point; a resolution failure
aborts before any of the mutations modelled here. -/
def install (d : DiscoverableSkill) (fetchFind : Except Err (Option Dir))
    (app : AppType) (yp : String → Option SkillMetadata) (now : Int)
    (db : DB) (fs : FS) : (SkillsIndex × DB × FS) × Except Err InstalledSkill :=
  let p := load_index db
  match migrate_ssot_if_pending yp now p.1 p.2 fs with
  | (s, .error e) => (s, .error e)
  | ((index, db1, fs1), .ok _) => install_resolved d fetchFind app now index db1 fs1

-- ===========================================================================
-- Import from apps (import_from_apps)
-- ===========================================================================

/-- Applications whose mirror root holds an existing entry of the given
name, in claude/codex/gemini order (the found_in accumulation of
import_from_apps). -/
def appsContaining (fs : FS) (name : String) : List AppType :=
  [AppType.claude, AppType.codex, AppType.gemini].filter
    (fun a =>
      match appRoot fs a with
      | none => false
      | some entries =>
        match lookupA entries name with
        | some e => entryExists fs e
        | none => false)

/-- Source entry of an import: the entry of the first application that
holds the name. -/
def firstSourceEntry (fs : FS) (name : String) : Option FsEntry :=
  match appsContaining fs name with
  | [] => none
  | a :: _ =>
    match appRoot fs a with
    | none => none
    | some entries => lookupA entries name

/-- Per-directory loop of import_from_apps: skip names found nowhere; copy
the first found instance into the canonical store when absent (a copy
failure aborts the whole call); parse metadata from the canonical-store
copy; create or update the record, merging discovered flags and filling
blank name and missing description. -/
def importLoop (yp : String → Option SkillMetadata) (now : Int) :
    List String → SkillsIndex → FS → List InstalledSkill →
    (SkillsIndex × FS × List InstalledSkill) × Option Err
  | [], index, fs, imported => ((index, fs, imported), none)
  | dirName :: rest, index, fs, imported =>
    match firstSourceEntry fs dirName with
    | none => importLoop yp now rest index fs imported
    | some e =>
      let ensured :=
        if (lookupA fs.ssot dirName).isSome then (fs, none)
        else copyEntryIntoSsot fs dirName e
      match ensured with
      | (fs1, some err) => ((index, fs1, imported), some err)
      | (fs1, none) =>
        let nmdesc :=
          match lookupA fs1.ssot dirName with
          | some d =>
            match lookupA d.files "SKILL.md" with
            | some content =>
              let meta := parse_skill_metadata yp content
              (meta.name.getD dirName, meta.description)
            | none => (dirName, none)
          | none => (dirName, none)
        let apps := (appsContaining fs dirName).foldl
          (fun a app => a.set_enabled_for app true) SkillApps.empty
        let record0 :=
          match lookupA index.skills dirName with
          | some r => r
          | none =>
            { id := "local:" ++ dirName
              name := nmdesc.1
              description := nmdesc.2
              directory := dirName
              readme_url := none
              repo_owner := none
              repo_name := none
              repo_branch := none
              apps := SkillApps.empty
              installed_at := now }
        let r1 := { record0 with apps := record0.apps.merge_enabled apps }
        let r2 := if r1.description = none then { r1 with description := nmdesc.2 } else r1
        let r3 := if trimAscii r2.name = "" then { r2 with name := nmdesc.1 } else r2
        let index1 := { index with skills := insertA index.skills dirName r3 }
        importLoop yp now rest index1 fs1 (imported ++ [r3])

/-- SkillService::import_from_apps: load the index, run the per-directory
loop, and persist once at the end of a successful run; a copy failure
aborts before the persist. -/
def import_from_apps (yp : String → Option SkillMetadata) (now : Int)
    (directories : List String) (db : DB) (fs : FS) :
    (SkillsIndex × DB × FS) × Except Err (List InstalledSkill) :=
  let p := load_index db
  match importLoop yp now directories p.1 fs [] with
  | ((index, fs1, _), some e) => ((index, p.2, fs1), .error e)
  | ((index, fs1, imported), none) =>
    ((index, save_index index p.2, fs1), .ok imported)

-- ===========================================================================
-- Unmanaged scan (scan_unmanaged)
-- ===========================================================================

/-- User-facing tag of an application in found_in lists. -/
def appTag : AppType → String
  | .claude => "claude"
  | .codex => "codex"
  | .gemini => "gemini"

/-- Name and description of an unmanaged directory, from its SKILL.md when
present. -/
def scanMeta (yp : String → Option SkillMetadata) (d : Dir) (name : String) :
    String × Option String :=
  match lookupA d.files "SKILL.md" with
  | some content =>
    let meta := parse_skill_metadata yp content
    (meta.name.getD name, meta.description)
  | none => (name, none)

/-- Append an application tag to the found_in list of the named entry. -/
def pushFoundIn : List (String × UnmanagedSkill) → String → String →
    List (String × UnmanagedSkill)
  | [], _, _ => []
  | (k, u) :: xs, name, tag =>
    if k = name then (k, { u with found_in := u.found_in ++ [tag] }) :: xs
    else (k, u) :: pushFoundIn xs name tag

/-- Entry loop of scan_unmanaged for one application: skip non-directories,
dot-directories and managed names (case-sensitive key comparison); merge a
repeated name by accumulating the tag, otherwise insert a fresh entry. -/
def scanEntries (yp : String → Option SkillMetadata) (fs : FS)
    (managed : List String) (tag : String) :
    List (String × FsEntry) → List (String × UnmanagedSkill) →
    List (String × UnmanagedSkill)
  | [], acc => acc
  | (name, e) :: rest, acc =>
    match entryToDir fs e with
    | none => scanEntries yp fs managed tag rest acc
    | some d =>
      if startsDot name then scanEntries yp fs managed tag rest acc
      else if managed.contains name then scanEntries yp fs managed tag rest acc
      else
        let acc1 :=
          match lookupA acc name with
          | some _ => pushFoundIn acc name tag
          | none =>
            let nmdesc := scanMeta yp d name
            acc ++ [(name,
              { directory := name, name := nmdesc.1, description := nmdesc.2,
                found_in := [tag] })]
        scanEntries yp fs managed tag rest acc1

/-- Application loop of scan_unmanaged. -/
def scanApps (yp : String → Option SkillMetadata) (fs : FS)
    (managed : List String) :
    List AppType → List (String × UnmanagedSkill) → List (String × UnmanagedSkill)
  | [], acc => acc
  | a :: rest, acc =>
    let acc1 :=
      match appRoot fs a with
      | none => acc
      | some entries => scanEntries yp fs managed (appTag a) entries acc
    scanApps yp fs managed rest acc1

/-- SkillService::scan_unmanaged: load the index, scan the three mirror
roots for top-level directories not present (case-sensitively) among the
package-map keys, parsing metadata per directory and merging repeated
names into one entry with an accumulated found_in list. -/
def scan_unmanaged (yp : String → Option SkillMetadata) (db : DB) (fs : FS) :
    DB × List UnmanagedSkill :=
  let p := load_index db
  let pairs := scanApps yp fs (keysA p.1.skills)
    [AppType.claude, AppType.codex, AppType.gemini] []
  (p.2, pairs.map Prod.snd)

-- ===========================================================================
-- Association-list lemmas
-- ===========================================================================

theorem keysA_cons {α : Type} (p : String × α) (l : List (String × α)) :
    keysA (p :: l) = p.1 :: keysA l := rfl

theorem lookupA_insertA_self {α : Type} (l : List (String × α)) (k : String) (v : α) :
    lookupA (insertA l k v) k = some v := by
  induction l with
  | nil => simp [insertA, lookupA]
  | cons p xs ih =>
    by_cases h : p.1 = k
    · simp [insertA, lookupA, h]
    · simp [insertA, lookupA, h, ih]

theorem keysA_insertA_of_isSome {α : Type} {l : List (String × α)} {k : String}
    (v : α) (h : (lookupA l k).isSome) : keysA (insertA l k v) = keysA l := by
  induction l with
  | nil => simp [lookupA] at h
  | cons p xs ih =>
    by_cases hk : p.1 = k
    · simp [insertA, keysA, hk]
    · have h2 : (lookupA xs k).isSome = true := by
        simpa [lookupA, hk] using h
      have h3 := ih h2
      simp only [keysA] at h3 ⊢
      simp [insertA, hk, h3]

theorem insertA_of_lookup_none {α : Type} {l : List (String × α)} {k : String}
    (v : α) (h : lookupA l k = none) : insertA l k v = l ++ [(k, v)] := by
  induction l with
  | nil => rfl
  | cons p xs ih =>
    by_cases hk : p.1 = k
    · simp [lookupA, hk] at h
    · simp [lookupA, hk] at h
      simp [insertA, hk, ih h]

theorem lookupA_eq_none_iff {α : Type} (l : List (String × α)) (k : String) :
    lookupA l k = none ↔ k ∉ keysA l := by
  induction l with
  | nil => simp [lookupA, keysA]
  | cons p xs ih =>
    by_cases hk : p.1 = k
    · simp [lookupA, keysA, hk]
    · simp only [lookupA, if_neg hk, keysA_cons, List.mem_cons]
      constructor
      · intro h hor
        rcases hor with he | hm
        · exact hk he.symm
        · exact (ih.mp h) hm
      · intro h
        exact ih.mpr (fun hm => h (Or.inr hm))

theorem lookupA_some_mem {α : Type} {l : List (String × α)} {k : String} {v : α}
    (h : lookupA l k = some v) : (k, v) ∈ l := by
  induction l with
  | nil => simp [lookupA] at h
  | cons p xs ih =>
    obtain ⟨k0, v0⟩ := p
    by_cases hk : k0 = k
    · have hv : v0 = v := by simpa [lookupA, hk] using h
      subst hk
      subst hv
      exact List.mem_cons_self _ _
    · have h2 : lookupA xs k = some v := by simpa [lookupA, hk] using h
      exact List.mem_cons_of_mem _ (ih h2)

theorem lookupA_append {α : Type} (l1 l2 : List (String × α)) (k : String) :
    lookupA (l1 ++ l2) k =
      match lookupA l1 k with
      | some v => some v
      | none => lookupA l2 k := by
  induction l1 with
  | nil => simp [lookupA]
  | cons p xs ih =>
    by_cases hk : p.1 = k
    · simp [lookupA, hk]
    · simp [lookupA, hk, ih]

theorem lookupA_removeA_self {α : Type} (l : List (String × α)) (k : String) :
    lookupA (removeA l k) k = none := by
  induction l with
  | nil => rfl
  | cons p xs ih =>
    by_cases hk : p.1 = k
    · simpa [removeA, List.filter_cons, hk] using ih
    · simp only [removeA, List.filter_cons, ne_eq, decide_not] at ih ⊢
      simp [hk, lookupA, ih]

theorem containsStr (l : List String) (s : String) :
    l.contains s = true ↔ s ∈ l := by
  induction l with
  | nil => simp
  | cons x xs ih =>
    simp only [List.contains_cons, Bool.or_eq_true, beq_iff_eq, List.mem_cons, ih]

theorem foldl_insertA_append {α : Type} :
    ∀ (l acc : List (String × α)), (keysA l).Nodup →
      (∀ k ∈ keysA l, lookupA acc k = none) →
      l.foldl (fun m p => insertA m p.1 p.2) acc = acc ++ l := by
  intro l
  induction l with
  | nil => intro acc _ _; simp
  | cons p xs ih =>
    intro acc hnd hdis
    have hnone : lookupA acc p.1 = none := hdis p.1 (by simp [keysA])
    have hstep : insertA acc p.1 p.2 = acc ++ [p] := by
      rw [insertA_of_lookup_none _ hnone]
    simp only [List.foldl_cons, hstep]
    rw [keysA_cons] at hnd
    have hnd2 : (keysA xs).Nodup := hnd.of_cons
    have hhead : p.1 ∉ keysA xs := (List.nodup_cons.mp hnd).1
    have hdis2 : ∀ k ∈ keysA xs, lookupA (acc ++ [p]) k = none := by
      intro k hk
      rw [lookupA_append]
      have h1 : lookupA acc k = none := hdis k (by rw [keysA_cons]; exact List.mem_cons_of_mem _ hk)
      have h2 : p.1 ≠ k := fun he => hhead (he ▸ hk)
      simp [h1, lookupA, h2]
    rw [ih (acc ++ [p]) hnd2 hdis2]
    simp

-- ===========================================================================
-- Projection lemmas for the operations
-- ===========================================================================

theorem load_index_pending (db : DB) :
    (load_index db).1.ssot_migration_pending = pendingFlag db := rfl

theorem load_index_snd_skills (db : DB) : (load_index db).2.skills = db.skills := rfl

theorem load_index_snd_settings (db : DB) : (load_index db).2.settings = db.settings := rfl

theorem load_index_snd_syncMethod (db : DB) :
    (load_index db).2.syncMethod = db.syncMethod := rfl

theorem load_index_sync_method (db : DB) :
    (load_index db).1.sync_method = db.syncMethod := rfl

theorem migrate_not_pending (yp : String → Option SkillMetadata) (now : Int)
    (index : SkillsIndex) (db : DB) (fs : FS)
    (h : index.ssot_migration_pending = false) :
    migrate_ssot_if_pending yp now index db fs = ((index, db, fs), .ok 0) := by
  unfold migrate_ssot_if_pending
  rw [h]
  simp

theorem install_eq_resolved (d : DiscoverableSkill) (fetchFind : Except Err (Option Dir))
    (app : AppType) (yp : String → Option SkillMetadata) (now : Int) (db : DB) (fs : FS)
    (h : pendingFlag db = false) :
    install d fetchFind app yp now db fs
      = install_resolved d fetchFind app now (load_index db).1 (load_index db).2 fs := by
  unfold install
  simp only [migrate_not_pending yp now (load_index db).1 (load_index db).2 fs
    ((load_index_pending db).trans h)]

theorem setAppRoot_ssot (fs : FS) (app : AppType) (l : List (String × FsEntry)) :
    (setAppRoot fs app l).ssot = fs.ssot := by
  cases app <;> rfl

theorem appRoot_setAppRoot_self (fs : FS) (app : AppType) (l : List (String × FsEntry)) :
    appRoot (setAppRoot fs app l) app = some l := by
  cases app <;> rfl

theorem sync_ok_ssot {fs : FS} {directory : String} {app : AppType}
    {method : SyncMethod} {fs1 : FS}
    (h : sync_to_app_dir fs directory app method = .ok fs1) : fs1.ssot = fs.ssot := by
  unfold sync_to_app_dir at h
  cases hl : lookupA fs.ssot directory with
  | none => rw [hl] at h; cases h
  | some d =>
    rw [hl] at h
    simp only [Except.ok.injEq] at h
    rw [← h]
    exact setAppRoot_ssot fs app _

theorem sync_ok_of_lookup {fs : FS} {directory : String} {app : AppType}
    {method : SyncMethod} {d : Dir} (h : lookupA fs.ssot directory = some d) :
    sync_to_app_dir fs directory app method
      = .ok (setAppRoot fs app
          (removeA ((appRoot fs app).getD []) directory
            ++ [(directory, syncEntryFor method directory d)])) := by
  unfold sync_to_app_dir
  rw [h]

theorem save_index_settings (index : SkillsIndex) (db : DB) :
    (save_index index db).settings = db.settings := by
  unfold save_index
  have h1 : ∀ (rs : List SkillRepo) (d : DB),
      (rs.foldl (fun d r => { d with repos := saveSkillRepo d.repos r }) d).settings
        = d.settings := by
    intro rs
    induction rs with
    | nil => intro d; rfl
    | cons r rs ih => intro d; rw [List.foldl_cons, ih]
  have h2 : ∀ (ps : List (String × InstalledSkill)) (d : DB),
      (ps.foldl (fun d p => saveSkill d p.2) d).settings = d.settings := by
    intro ps
    induction ps with
    | nil => intro d; rfl
    | cons p ps ih => intro d; rw [List.foldl_cons, ih]; rfl
  rw [h2, h1]

theorem save_index_syncMethod (index : SkillsIndex) (db : DB) :
    (save_index index db).syncMethod = index.sync_method := by
  unfold save_index
  have h1 : ∀ (rs : List SkillRepo) (d : DB),
      (rs.foldl (fun d r => { d with repos := saveSkillRepo d.repos r }) d).syncMethod
        = d.syncMethod := by
    intro rs
    induction rs with
    | nil => intro d; rfl
    | cons r rs ih => intro d; rw [List.foldl_cons, ih]
  have h2 : ∀ (ps : List (String × InstalledSkill)) (d : DB),
      (ps.foldl (fun d p => saveSkill d p.2) d).syncMethod = d.syncMethod := by
    intro ps
    induction ps with
    | nil => intro d; rfl
    | cons p ps ih => intro d; rw [List.foldl_cons, ih]; rfl
  rw [h2, h1]

theorem save_index_repos (index : SkillsIndex) (db : DB) :
    (save_index index db).repos = index.repos.foldl saveSkillRepo db.repos := by
  unfold save_index
  have h2 : ∀ (ps : List (String × InstalledSkill)) (d : DB),
      (ps.foldl (fun d p => saveSkill d p.2) d).repos = d.repos := by
    intro ps
    induction ps with
    | nil => intro d; rfl
    | cons p ps ih => intro d; rw [List.foldl_cons, ih]; rfl
  have h1 : ∀ (rs : List SkillRepo) (d : DB),
      (rs.foldl (fun d r => { d with repos := saveSkillRepo d.repos r }) d).repos
        = rs.foldl saveSkillRepo d.repos := by
    intro rs
    induction rs with
    | nil => intro d; rfl
    | cons r rs ih => intro d; rw [List.foldl_cons, ih]; rfl
  rw [h2, h1]

theorem save_index_skills (index : SkillsIndex) (db : DB) :
    (save_index index db).skills
      = index.skills.foldl (fun s p => insertA s p.2.id p.2) db.skills := by
  unfold save_index
  have h1 : ∀ (rs : List SkillRepo) (d : DB),
      (rs.foldl (fun d r => { d with repos := saveSkillRepo d.repos r }) d).skills
        = d.skills := by
    intro rs
    induction rs with
    | nil => intro d; rfl
    | cons r rs ih => intro d; rw [List.foldl_cons, ih]
  have h2 : ∀ (ps : List (String × InstalledSkill)) (d : DB),
      (ps.foldl (fun d p => saveSkill d p.2) d).skills
        = ps.foldl (fun s p => insertA s p.2.id p.2) d.skills := by
    intro ps
    induction ps with
    | nil => intro d; rfl
    | cons p ps ih => intro d; rw [List.foldl_cons, ih]; rfl
  rw [h2, h1]

-- ===========================================================================
-- Claim C8: metadata parser totality on malformed input
-- ===========================================================================

/-- C8: for every readable manifest content, if splitting the BOM-stripped
content on "---" yields fewer than three parts, or the text between the
first two delimiters fails to parse as the structured record, the metadata
parser returns (none, none); the parser is a total function on content, so
no error aborts the caller. -/
theorem c8_parser_totality (yp : String → Option SkillMetadata) (content : String) :
    ((splitnStr 3 "---" (stripBomStr content)).length < 3 →
      parse_skill_metadata yp content = ⟨none, none⟩) ∧
    (yp (trimAscii ((splitnStr 3 "---" (stripBomStr content)).getD 1 "")) = none →
      parse_skill_metadata yp content = ⟨none, none⟩) := by
  constructor
  · intro h
    unfold parse_skill_metadata
    simp [h]
  · intro h
    simp only [parse_skill_metadata]
    by_cases hl : (splitnStr 3 "---" (stripBomStr content)).length < 3
    · simp [hl]
    · rw [if_neg hl, h]

/-- Witness for C8 at concrete malformed content with no front matter. -/
theorem c8_witness :
    (splitnStr 3 "---" (stripBomStr "no front matter here")).length < 3 ∧
    parse_skill_metadata noYaml "no front matter here" = ⟨none, none⟩ :=
  ⟨by decide, (c8_parser_totality noYaml "no front matter here").1 (by decide)⟩

-- ===========================================================================
-- Claim C2: conflicting install fails without mutation
-- ===========================================================================

/-- C2: when migration is not pending, a record already exists under the
canonical install name, its repository differs from the resolved package's
repository, and it has a repo association or a local id, install returns
the directory-conflict error naming both repositories, returns the loaded
index unchanged, leaves the whole filesystem (canonical store and all
mirrors) untouched, and leaves the persisted package records unchanged
(loading only inserts missing default repos). -/
theorem c2_conflict_no_mutation (d : DiscoverableSkill)
    (fetchFind : Except Err (Option Dir)) (app : AppType)
    (yp : String → Option SkillMetadata) (now : Int) (db : DB) (fs : FS)
    (ex : InstalledSkill)
    (hpend : pendingFlag db = false)
    (hex : lookupA (load_index db).1.skills (lastSegment d.directory) = some ex)
    (hrepo : ex.repo_owner ≠ some d.repo_owner ∨ ex.repo_name ≠ some d.repo_name)
    (hassoc : ex.repo_owner.isSome = true ∨ ex.repo_name.isSome = true
      ∨ strStarts "local:" ex.id = true) :
    install d fetchFind app yp now db fs
      = (((load_index db).1, (load_index db).2, fs),
         .error (.directoryConflict (lastSegment d.directory)
           (ex.repo_owner.getD "unknown" ++ "/" ++ ex.repo_name.getD "unknown")
           (d.repo_owner ++ "/" ++ d.repo_name)))
    ∧ (load_index db).2.skills = db.skills := by
  refine ⟨?_, load_index_snd_skills db⟩
  rw [install_eq_resolved d fetchFind app yp now db fs hpend]
  simp only [install_resolved, hex]
  rw [if_pos ⟨hrepo, hassoc⟩]

/-- Witness for C2: a concrete conflicting install. -/
def dbW2 : DB :=
  ⟨[], [("a/b:demo", ⟨"a/b:demo", "demo", none, "demo", none, some "a", some "b",
    some "main", SkillApps.empty, 0⟩)], [], .auto⟩

/-- Discoverable skill colliding with dbW2's record from another repo. -/
def discW2 : DiscoverableSkill :=
  ⟨"c/d:demo", "demo", "", "demo", none, "c", "d", "main"⟩

theorem c2_witness :
    pendingFlag dbW2 = false ∧
    install discW2 (.ok none) .claude noYaml 0 dbW2 ⟨[], none, none, none⟩
      = (((load_index dbW2).1, (load_index dbW2).2, ⟨[], none, none, none⟩),
         .error (.directoryConflict "demo" "a/b" "c/d")) :=
  ⟨by decide,
    by
      have h := c2_conflict_no_mutation discW2 (.ok none) .claude noYaml 0 dbW2
        ⟨[], none, none, none⟩
        ⟨"a/b:demo", "demo", none, "demo", none, some "a", some "b", some "main",
          SkillApps.empty, 0⟩
        (by decide) (by decide) (by decide) (by decide)
      exact h.1.trans rfl⟩

theorem lookupA_snoc_self {α : Type} (l : List (String × α)) (k : String) (v : α)
    (h : lookupA l k = none) : lookupA (l ++ [(k, v)]) k = some v := by
  rw [lookupA_append, h]
  simp [lookupA]

-- ===========================================================================
-- Claim C4: same-repo re-install is idempotent
-- ===========================================================================

/-- C4: when migration is not pending and a record under the canonical
install name already belongs to the resolved package's repository (same
owner and name), install keeps the directory key (the in-memory package
map becomes an in-place insert at the same key, so the key set is
unchanged), keeps the record's id, directory and every other field, sets
only the requesting app's flag to true, and leaves the canonical store
untouched. -/
theorem c4_reinstall_idempotent (d : DiscoverableSkill)
    (fetchFind : Except Err (Option Dir)) (app : AppType)
    (yp : String → Option SkillMetadata) (now : Int) (db : DB) (fs : FS)
    (ex : InstalledSkill)
    (hpend : pendingFlag db = false)
    (hex : lookupA (load_index db).1.skills (lastSegment d.directory) = some ex)
    (howner : ex.repo_owner = some d.repo_owner)
    (hname : ex.repo_name = some d.repo_name) :
    (install d fetchFind app yp now db fs).1.1.skills
        = insertA (load_index db).1.skills (lastSegment d.directory)
            { ex with apps := ex.apps.set_enabled_for app true } ∧
    keysA (install d fetchFind app yp now db fs).1.1.skills
        = keysA (load_index db).1.skills ∧
    lookupA (install d fetchFind app yp now db fs).1.1.skills (lastSegment d.directory)
        = some { ex with apps := ex.apps.set_enabled_for app true } ∧
    (install d fetchFind app yp now db fs).1.2.2.ssot = fs.ssot := by
  have hcond : ¬ ((ex.repo_owner ≠ some d.repo_owner ∨ ex.repo_name ≠ some d.repo_name)
      ∧ (ex.repo_owner.isSome = true ∨ ex.repo_name.isSome = true
          ∨ strStarts "local:" ex.id = true)) := by
    intro hc
    rcases hc.1 with h | h
    · exact h howner
    · exact h hname
  rw [install_eq_resolved d fetchFind app yp now db fs hpend]
  simp only [install_resolved, hex]
  rw [if_neg hcond]
  cases hsync : sync_to_app_dir fs (lastSegment d.directory) app
      (load_index db).1.sync_method with
  | error e =>
    simp only [hsync]
    refine ⟨by first | rfl | trivial,
      keysA_insertA_of_isSome _ (by rw [hex]; rfl),
      lookupA_insertA_self _ _ _,
      by first | rfl | trivial⟩
  | ok fs1 =>
    simp only [hsync]
    refine ⟨by first | rfl | trivial,
      keysA_insertA_of_isSome _ (by rw [hex]; rfl),
      lookupA_insertA_self _ _ _,
      sync_ok_ssot hsync⟩

/-- Persisted state for the C4 witness: one record installed from a/b. -/
def dbW4 : DB :=
  ⟨[], [("a/b:demo", ⟨"a/b:demo", "demo", none, "demo", none, some "a", some "b",
    some "main", SkillApps.only .claude, 0⟩)], [], .auto⟩

/-- Discoverable skill of the C4 witness: same directory, same repo a/b. -/
def discW4 : DiscoverableSkill :=
  ⟨"a/b:demo", "demo", "", "demo", none, "a", "b", "main"⟩

/-- Filesystem for the C4 witness: the canonical store already holds demo. -/
def fsW4 : FS := ⟨[("demo", ⟨[]⟩)], none, none, none⟩

theorem c4_witness :
    pendingFlag dbW4 = false ∧
    keysA (install discW4 (.ok none) .codex noYaml 5 dbW4 fsW4).1.1.skills
      = keysA (load_index dbW4).1.skills ∧
    (install discW4 (.ok none) .codex noYaml 5 dbW4 fsW4).1.2.2.ssot = fsW4.ssot :=
  ⟨by decide,
    (c4_reinstall_idempotent discW4 (.ok none) .codex noYaml 5 dbW4 fsW4
      ⟨"a/b:demo", "demo", none, "demo", none, some "a", some "b", some "main",
        SkillApps.only .claude, 0⟩
      (by decide) (by decide) (by decide) (by decide)).2.1,
    (c4_reinstall_idempotent discW4 (.ok none) .codex noYaml 5 dbW4 fsW4
      ⟨"a/b:demo", "demo", none, "demo", none, some "a", some "b", some "main",
        SkillApps.only .claude, 0⟩
      (by decide) (by decide) (by decide) (by decide)).2.2.2⟩

-- ===========================================================================
-- Claim C10: first-time install reuses a pre-existing canonical directory
-- ===========================================================================

/-- C10: when migration is not pending, no record exists under the
canonical install name, and the canonical-store directory of that name
already exists, install is independent of the network fetch (no download,
no copy), leaves the whole canonical store unchanged, appends a new record
whose flags enable only the requesting app, returns it, and materializes
the requesting app's mirror from the existing contents. -/
theorem c10_install_reuses_existing_ssot (d : DiscoverableSkill)
    (fetchFind : Except Err (Option Dir)) (app : AppType)
    (yp : String → Option SkillMetadata) (now : Int) (db : DB) (fs : FS)
    (d0 : Dir)
    (hpend : pendingFlag db = false)
    (hnone : lookupA (load_index db).1.skills (lastSegment d.directory) = none)
    (hssot : lookupA fs.ssot (lastSegment d.directory) = some d0) :
    (∀ fetch2, install d fetch2 app yp now db fs = install d fetchFind app yp now db fs) ∧
    (install d fetchFind app yp now db fs).1.2.2.ssot = fs.ssot ∧
    (install d fetchFind app yp now db fs).1.1.skills
      = (load_index db).1.skills
          ++ [(lastSegment d.directory, freshInstallRecord d app now (lastSegment d.directory))] ∧
    (install d fetchFind app yp now db fs).2
      = .ok (freshInstallRecord d app now (lastSegment d.directory)) ∧
    lookupA ((appRoot (install d fetchFind app yp now db fs).1.2.2 app).getD [])
        (lastSegment d.directory)
      = some (syncEntryFor (load_index db).1.sync_method (lastSegment d.directory) d0) := by
  have hred : ∀ f : Except Err (Option Dir),
      install d f app yp now db fs
        = finish_install d app now (lastSegment d.directory)
            (load_index db).1 (load_index db).2 fs := by
    intro f
    rw [install_eq_resolved d f app yp now db fs hpend]
    simp only [install_resolved, hnone, hssot]
  refine ⟨fun fetch2 => (hred fetch2).trans (hred fetchFind).symm, ?_, ?_, ?_, ?_⟩ <;>
    rw [hred fetchFind] <;>
    simp only [finish_install] <;>
    rw [sync_ok_of_lookup hssot]
  all_goals first
    | exact setAppRoot_ssot fs app _
    | exact insertA_of_lookup_none _ hnone
    | rfl
    | (rw [appRoot_setAppRoot_self]
       simp only [Option.getD_some]
       exact lookupA_snoc_self _ _ _ (lookupA_removeA_self _ _))

/-- Filesystem for the C10 witness: canonical store already holds demo,
no index record exists. -/
def fsW10 : FS := ⟨[("demo", ⟨[("SKILL.md", "x")]⟩)], none, none, none⟩

/-- Discoverable skill of the C10 witness. -/
def discW10 : DiscoverableSkill :=
  ⟨"o/r:demo", "Demo", "a demo", "demo", none, "o", "r", "main"⟩

theorem c10_witness :
    pendingFlag (⟨[], [], [], .auto⟩ : DB) = false ∧
    (install discW10 (.error .ioError) .claude noYaml 7 ⟨[], [], [], .auto⟩ fsW10).1.2.2.ssot
      = fsW10.ssot ∧
    (install discW10 (.error .ioError) .claude noYaml 7 ⟨[], [], [], .auto⟩ fsW10).2
      = .ok (freshInstallRecord discW10 .claude 7 (lastSegment discW10.directory)) :=
  ⟨by decide,
    (c10_install_reuses_existing_ssot discW10 (.error .ioError) .claude noYaml 7
      ⟨[], [], [], .auto⟩ fsW10 ⟨[("SKILL.md", "x")]⟩
      (by decide) (by decide) (by decide)).2.1,
    (c10_install_reuses_existing_ssot discW10 (.error .ioError) .claude noYaml 7
      ⟨[], [], [], .auto⟩ fsW10 ⟨[("SKILL.md", "x")]⟩
      (by decide) (by decide) (by decide)).2.2.2.1⟩

-- ===========================================================================
-- Claim C1: case-insensitive uniqueness of package keys
-- ===========================================================================

/-- Directory contents for the C1 counterexample. -/
def dirHello : Dir := ⟨[("SKILL.md", "hi")]⟩

/-- Filesystem for the C1 counterexample: the claude mirror holds a
directory named Hello, nothing is managed yet. -/
def fsC1 : FS := ⟨[], some [("Hello", .dirE dirHello)], none, none⟩

/-- State after importing Hello from the application mirrors. -/
def stateC1 : SkillsIndex × DB × FS :=
  (import_from_apps noYaml 0 ["Hello"] ⟨[], [], [], .auto⟩ fsC1).1

/-- Discoverable skill whose canonical name differs from the imported key
only in letter case. -/
def discC1 : DiscoverableSkill :=
  ⟨"o/r:hello", "hello", "", "hello", none, "o", "r", "main"⟩

/-- Result of installing hello after Hello was imported. -/
def installC1 : (SkillsIndex × DB × FS) × Except Err InstalledSkill :=
  install discC1 (.ok (some ⟨[("SKILL.md", "yo")]⟩)) .claude noYaml 1
    stateC1.2.1 stateC1.2.2

/-- C1 counterexample: the claim that no two package-map keys are equal
case-insensitively on any index reachable through the engine's operations
is false: importing Hello and then installing hello from a repository
yields a package map whose key list is [Hello, hello] — two distinct keys
that are equal ignoring ASCII case. The install conflict check uses an
exact-case map lookup, so the case-variant existing key is not seen. -/
theorem c1_counterexample :
    keysA installC1.1.1.skills = ["Hello", "hello"] ∧
    eqIgnoreAsciiCase "Hello" "hello" = true ∧ "Hello" ≠ "hello" := by decide

/-- C1 amended: package-map keys are unique as exact strings, and install
prevents a second record only under an exact-case match: whenever a record
already exists under the canonical install name itself (case-sensitively),
install adds no key to the package map; a canonical name differing from an
existing key only in letter case is not detected and creates a second,
case-insensitively-equal key. -/
theorem c1_exact_key_no_new_key (d : DiscoverableSkill)
    (fetchFind : Except Err (Option Dir)) (app : AppType)
    (yp : String → Option SkillMetadata) (now : Int) (db : DB) (fs : FS)
    (ex : InstalledSkill)
    (hpend : pendingFlag db = false)
    (hex : lookupA (load_index db).1.skills (lastSegment d.directory) = some ex) :
    keysA (install d fetchFind app yp now db fs).1.1.skills
      = keysA (load_index db).1.skills := by
  rw [install_eq_resolved d fetchFind app yp now db fs hpend]
  simp only [install_resolved, hex]
  by_cases hc : (ex.repo_owner ≠ some d.repo_owner ∨ ex.repo_name ≠ some d.repo_name)
      ∧ (ex.repo_owner.isSome = true ∨ ex.repo_name.isSome = true
          ∨ strStarts "local:" ex.id = true)
  · rw [if_pos hc]
  · rw [if_neg hc]
    cases hsync : sync_to_app_dir fs (lastSegment d.directory) app
        (load_index db).1.sync_method with
    | error e =>
      simp only [hsync]
      exact keysA_insertA_of_isSome _ (by rw [hex]; rfl)
    | ok fs1 =>
      simp only [hsync]
      exact keysA_insertA_of_isSome _ (by rw [hex]; rfl)

theorem c1_witness :
    pendingFlag dbW4 = false ∧
    keysA (install discW4 (.ok none) .gemini noYaml 9 dbW4 fsW4).1.1.skills
      = keysA (load_index dbW4).1.skills :=
  ⟨by decide,
    c1_exact_key_no_new_key discW4 (.ok none) .gemini noYaml 9 dbW4 fsW4
      ⟨"a/b:demo", "demo", none, "demo", none, some "a", some "b", some "main",
        SkillApps.only .claude, 0⟩
      (by decide) (by decide)⟩

-- ===========================================================================
-- Claim C3: non-empty migration never adds package-map keys
-- ===========================================================================

theorem migrateRecords_keys (yp : String → Option SkillMetadata)
    (l : List (String × InstalledSkill)) :
    ∀ fs : FS, keysA (migrateRecords yp fs l).1 = keysA l := by
  induction l with
  | nil => intro fs; rfl
  | cons p rest ih =>
    intro fs
    obtain ⟨dirName, record⟩ := p
    simp only [migrateRecords]
    split
    · simp only [keysA_cons, ih]
    · split
      · simp only [keysA_cons, ih]
      · split
        · simp only [keysA_cons]
        · simp only [keysA_cons, ih]

/-- C3: on every index whose package map is non-empty with the migration
flag pending, and for every persistence state and every state of the
application mirror directories, migrate_ssot_if_pending leaves the list of
package-map keys exactly as it was — untracked mirror directories are
never claimed, whether the call succeeds or aborts on a copy error. -/
theorem c3_migration_preserves_keys (yp : String → Option SkillMetadata)
    (now : Int) (index : SkillsIndex) (db : DB) (fs : FS)
    (hne : index.skills ≠ []) (hpend : index.ssot_migration_pending = true) :
    keysA ((migrate_ssot_if_pending yp now index db fs).1.1.skills)
      = keysA index.skills := by
  unfold migrate_ssot_if_pending
  rw [hpend]
  have hie : index.skills.isEmpty = false := by
    cases h : index.skills with
    | nil => exact absurd h hne
    | cons a l => rfl
  rw [hie]
  simp only [Bool.true_eq_false, if_false, Bool.false_eq_true]
  unfold migrateNonEmpty
  have hk := migrateRecords_keys yp index.skills fs
  cases hm : migrateRecords yp fs index.skills with
  | mk skills1 r2 =>
    obtain ⟨fs1, created, oerr⟩ := r2
    rw [hm] at hk
    cases oerr with
    | none => simpa using hk
    | some e => simpa using hk

/-- Witness for C3: one tracked record, pending migration, a mirror holding
an untracked directory; the key list is unchanged. -/
def idxW3 : SkillsIndex :=
  ⟨1, .auto, [], [("mine", ⟨"local:mine", "mine", none, "mine", none, none, none,
    none, SkillApps.only .claude, 0⟩)], true⟩

/-- Mirror state for the C3 witness: claude holds the tracked directory and
an untracked stranger directory. -/
def fsW3 : FS :=
  ⟨[], some [("mine", .dirE ⟨[]⟩), ("stranger", .dirE ⟨[]⟩)], none, none⟩

theorem c3_witness :
    idxW3.skills ≠ [] ∧ idxW3.ssot_migration_pending = true ∧
    keysA ((migrate_ssot_if_pending noYaml 0 idxW3 ⟨[], [], [], .auto⟩ fsW3).1.1.skills)
      = keysA idxW3.skills :=
  ⟨by decide, by decide,
    c3_migration_preserves_keys noYaml 0 idxW3 ⟨[], [], [], .auto⟩ fsW3
      (by decide) (by decide)⟩

-- ===========================================================================
-- Claim C5: pending flag clearing in the non-empty migration branch
-- ===========================================================================

/-- Tracked record of the C5 counterexample. -/
def recC5 : InstalledSkill :=
  ⟨"local:x", "x", none, "x", none, none, none, none, SkillApps.only .claude, 0⟩

/-- Index of the C5 counterexample: x is tracked, migration pending. -/
def idxC5 : SkillsIndex := ⟨1, .auto, [], [("x", recC5)], true⟩

/-- Persistence state of the C5 counterexample. -/
def dbC5 : DB := ⟨[], [], [("skills_ssot_migration_pending", "true")], .auto⟩

/-- Filesystem of the C5 counterexample: the canonical store lacks x and
the claude mirror holds a plain FILE named x, so the migration copy of x
fails (read_dir on a non-directory). -/
def fsC5 : FS := ⟨[], some [("x", .fileE "data")], none, none⟩

/-- C5 counterexample: the claim that the non-empty migration branch ends
with the pending flag cleared for every mirror and filesystem state is
false: when a per-package copy into the canonical store fails, the call
aborts with the in-memory flag still set and the persisted setting still
"true" — the flag is only cleared after every attempted copy succeeded. -/
theorem c5_counterexample :
    (migrate_ssot_if_pending noYaml 0 idxC5 dbC5 fsC5).2 = .error .ioError ∧
    (migrate_ssot_if_pending noYaml 0 idxC5 dbC5 fsC5).1.1.ssot_migration_pending = true ∧
    lookupA (migrate_ssot_if_pending noYaml 0 idxC5 dbC5 fsC5).1.2.1.settings
      "skills_ssot_migration_pending" = some "true" := by decide

/-- C5 amended: in the non-empty branch, whenever the call returns
successfully — no attempted per-package copy failed — the pending flag is
cleared and persisted as "false", no matter how many copies were actually
performed (records whose source is missing are skipped, and the flag is
still cleared); a failing copy instead aborts the call with the flag still
set, as the counterexample shows. -/
theorem c5_pending_cleared_on_success (yp : String → Option SkillMetadata)
    (now : Int) (index : SkillsIndex) (db : DB) (fs : FS) (n : Nat)
    (hne : index.skills ≠ []) (hpend : index.ssot_migration_pending = true)
    (hok : (migrate_ssot_if_pending yp now index db fs).2 = .ok n) :
    (migrate_ssot_if_pending yp now index db fs).1.1.ssot_migration_pending = false ∧
    lookupA (migrate_ssot_if_pending yp now index db fs).1.2.1.settings
      "skills_ssot_migration_pending" = some "false" := by
  unfold migrate_ssot_if_pending at hok ⊢
  rw [hpend] at hok ⊢
  have hie : index.skills.isEmpty = false := by
    cases h : index.skills with
    | nil => exact absurd h hne
    | cons a l => rfl
  rw [hie] at hok ⊢
  simp only [Bool.true_eq_false, if_false, Bool.false_eq_true] at hok ⊢
  unfold migrateNonEmpty at hok ⊢
  cases hm : migrateRecords yp fs index.skills with
  | mk skills1 r2 =>
    obtain ⟨fs1, created, oerr⟩ := r2
    cases oerr with
    | none =>
      constructor
      · simp
      · simp only []
        rw [save_index_settings]
        exact lookupA_insertA_self _ _ _
    | some e =>
      rw [hm] at hok
      simp at hok

/-- Witness for C5: the tracked record's source is missing everywhere, so
zero copies happen, the call succeeds and the flag is still cleared. -/
theorem c5_witness :
    idxW3.skills ≠ [] ∧ idxW3.ssot_migration_pending = true ∧
    (migrate_ssot_if_pending noYaml 0 idxW3 ⟨[], [], [], .auto⟩
      ⟨[], none, none, none⟩).2 = .ok 0 ∧
    (migrate_ssot_if_pending noYaml 0 idxW3 ⟨[], [], [], .auto⟩
      ⟨[], none, none, none⟩).1.1.ssot_migration_pending = false :=
  ⟨by decide, by decide, by decide,
    (c5_pending_cleared_on_success noYaml 0 idxW3 ⟨[], [], [], .auto⟩
      ⟨[], none, none, none⟩ 0 (by decide) (by decide) (by decide)).1⟩

-- ===========================================================================
-- Claim C7: toggle persists the index only after the filesystem change
-- ===========================================================================

/-- C7: for every toggle call, when the call errors — in particular when
materializing fails because the canonical store lacks the directory — the
persisted package records and sync method are unchanged and no
persist event was emitted (the in-memory flag change is not saved); on the
success path the event trace is exactly the filesystem change followed by
the index persist, so the persist happens strictly after the mirror
operation. -/
theorem c7_persist_after_fs (input : String) (app : AppType) (enabled : Bool)
    (db : DB) (fs : FS) :
    (∀ e, (toggle_app input app enabled db fs).2 = .error e →
      (toggle_app input app enabled db fs).1.1.skills = db.skills ∧
      (toggle_app input app enabled db fs).1.1.syncMethod = db.syncMethod ∧
      SyncEv.persistIndex ∉ (toggle_app input app enabled db fs).1.2.2) ∧
    ((toggle_app input app enabled db fs).2 = .ok () →
      (toggle_app input app enabled db fs).1.2.2
        = [(if enabled then SyncEv.fsSync else SyncEv.fsRemove), SyncEv.persistIndex]) := by
  simp only [toggle_app]
  split
  · exact ⟨fun e he => ⟨rfl, rfl, by simp⟩, fun h => by simp at h⟩
  · split
    · exact ⟨fun e he => ⟨rfl, rfl, by simp⟩, fun h => by simp at h⟩
    · split
      next henb =>
        split
        · exact ⟨fun e2 he2 => ⟨rfl, rfl, by simp⟩, fun h => by simp at h⟩
        · exact ⟨fun e2 he2 => by simp at he2, fun h => by simp [henb]⟩
      next henb =>
        exact ⟨fun e2 he2 => by simp at he2, fun h => by simp [henb]⟩

/-- Witness for C7: toggling on a record whose canonical-store directory is
missing fails and does not persist. -/
def dbW7 : DB :=
  ⟨[], [("ghost", ⟨"local:ghost", "ghost", none, "ghost", none, none, none, none,
    SkillApps.empty, 0⟩)], [], .auto⟩

theorem c7_witness :
    (toggle_app "ghost" .claude true dbW7 ⟨[], none, none, none⟩).2
      = .error (.ssotMissing "ghost") ∧
    (toggle_app "ghost" .claude true dbW7 ⟨[], none, none, none⟩).1.1.skills
      = dbW7.skills ∧
    SyncEv.persistIndex
      ∉ (toggle_app "ghost" .claude true dbW7 ⟨[], none, none, none⟩).1.2.2 :=
  ⟨by decide,
    ((c7_persist_after_fs "ghost" .claude true dbW7 ⟨[], none, none, none⟩).1
      (.ssotMissing "ghost") (by decide)).1,
    ((c7_persist_after_fs "ghost" .claude true dbW7 ⟨[], none, none, none⟩).1
      (.ssotMissing "ghost") (by decide)).2.2⟩

-- ===========================================================================
-- Claim C6: save/load round-trip of the index
-- ===========================================================================

/-- Stale record of the C6 counterexample, present in the persisted state
but absent from the index being saved. -/
def staleRec : InstalledSkill :=
  ⟨"stale-id", "Stale", none, "stale", none, none, none, none, SkillApps.empty, 0⟩

/-- Prior persisted state of the C6 counterexample. -/
def dbC6 : DB := ⟨[], [("stale-id", staleRec)], [], .auto⟩

/-- Index being saved in the C6 counterexample: empty package map. -/
def idxC6 : SkillsIndex := ⟨1, .auto, defaultSkillRepos, [], false⟩

/-- C6 counterexample: the claim that for every index and every prior
persisted state a load after save returns the saved package map is false:
save only upserts and never deletes, so a stale record in the prior
persisted state survives the save of an index with an empty package map
and reappears on load. -/
theorem c6_counterexample :
    (load_index (save_index idxC6 dbC6)).1.skills = [("stale", staleRec)] ∧
    idxC6.skills = [] := by decide

theorem saveSkillRepo_append (acc : List SkillRepo) (r : SkillRepo)
    (h : ∀ x ∈ acc, ¬(x.owner = r.owner ∧ x.name = r.name)) :
    saveSkillRepo acc r = acc ++ [r] := by
  induction acc with
  | nil => rfl
  | cons x xs ih =>
    have hx : ¬(x.owner = r.owner ∧ x.name = r.name) := h x (List.mem_cons_self _ _)
    simp only [saveSkillRepo, if_neg hx, List.cons_append]
    rw [ih (fun y hy => h y (List.mem_cons_of_mem _ hy))]

theorem foldl_saveSkillRepo_append :
    ∀ (rs acc : List SkillRepo),
      (rs.map (fun r => (r.owner, r.name))).Nodup →
      (∀ r ∈ rs, ∀ x ∈ acc, ¬(x.owner = r.owner ∧ x.name = r.name)) →
      rs.foldl saveSkillRepo acc = acc ++ rs := by
  intro rs
  induction rs with
  | nil => intro acc _ _; simp
  | cons r rs ih =>
    intro acc hnd hdis
    rw [List.map_cons] at hnd
    have hhead : (r.owner, r.name) ∉ rs.map (fun x => (x.owner, x.name)) :=
      (List.nodup_cons.mp hnd).1
    rw [List.foldl_cons, saveSkillRepo_append acc r (hdis r (List.mem_cons_self _ _))]
    rw [ih (acc ++ [r]) (List.nodup_cons.mp hnd).2 ?_]
    · simp
    · intro r2 hr2 x hx
      rcases List.mem_append.mp hx with hxa | hxr
      · exact hdis r2 (List.mem_cons_of_mem _ hr2) x hxa
      · have hxr2 : x = r := by simpa using hxr
        intro hc
        apply hhead
        have hkey : (r.owner, r.name) = (r2.owner, r2.name) := by
          rw [← hxr2, hc.1, hc.2]
        rw [hkey]
        exact List.mem_map_of_mem _ hr2

theorem foldl_saveSkill_append :
    ∀ (ps acc : List (String × InstalledSkill)),
      (ps.map (fun p => p.2.id)).Nodup →
      (∀ p ∈ ps, lookupA acc p.2.id = none) →
      ps.foldl (fun s p => insertA s p.2.id p.2) acc
        = acc ++ ps.map (fun p => (p.2.id, p.2)) := by
  intro ps
  induction ps with
  | nil => intro acc _ _; simp
  | cons p ps ih =>
    intro acc hnd hdis
    rw [List.map_cons] at hnd
    have hhead : p.2.id ∉ ps.map (fun q => q.2.id) := (List.nodup_cons.mp hnd).1
    rw [List.foldl_cons,
      insertA_of_lookup_none p.2 (hdis p (List.mem_cons_self _ _))]
    rw [ih (acc ++ [(p.2.id, p.2)]) (List.nodup_cons.mp hnd).2 ?_]
    · simp
    · intro q hq
      rw [lookupA_append, hdis q (List.mem_cons_of_mem _ hq)]
      have hne : p.2.id ≠ q.2.id := by
        intro he
        exact hhead (he ▸ List.mem_map_of_mem _ hq)
      simp [lookupA, hne]

theorem initDefaults_skills (d : DB) : (initDefaultSkillRepos d).skills = d.skills := rfl

theorem initDefaults_syncMethod (d : DB) :
    (initDefaultSkillRepos d).syncMethod = d.syncMethod := rfl

theorem initDefaults_covered (d : DB)
    (h : ∀ r0 ∈ defaultSkillRepos, ∃ r ∈ d.repos, r.owner = r0.owner ∧ r.name = r0.name) :
    (initDefaultSkillRepos d).repos = d.repos := by
  unfold initDefaultSkillRepos
  simp only []
  have hgen : ∀ (ds : List SkillRepo) (l : List SkillRepo),
      (∀ r0 ∈ ds, ∃ r ∈ l, r.owner = r0.owner ∧ r.name = r0.name) →
      ds.foldl insertMissingRepo l = l := by
    intro ds
    induction ds with
    | nil => intro l _; rfl
    | cons d0 ds ih =>
      intro l hc
      have hstep : insertMissingRepo l d0 = l := by
        unfold insertMissingRepo
        obtain ⟨r, hr, ho, hn⟩ := hc d0 (List.mem_cons_self _ _)
        rw [if_pos]
        rw [List.any_eq_true]
        exact ⟨r, hr, by simp [ho, hn]⟩
      rw [List.foldl_cons, hstep]
      exact ih l (fun r0 h0 => hc r0 (List.mem_cons_of_mem _ h0))
  exact hgen defaultSkillRepos d.repos h

theorem map_self_of_eq {α : Type} (f : α → α) :
    ∀ l : List α, (∀ a ∈ l, f a = a) → l.map f = l := by
  intro l
  induction l with
  | nil => intro _; rfl
  | cons a l ih =>
    intro h
    rw [List.map_cons, h a (List.mem_cons_self _ _),
      ih (fun b hb => h b (List.mem_cons_of_mem _ hb))]

/-- C6 amended: save writes the repository list, package map and sync
method back, and load returns exactly them, provided the prior persisted
state holds no repo and no package record (save never deletes, so anything
already persisted and absent from the index survives, as the
counterexample shows), the saved repo list has distinct (owner, name) keys
and contains every built-in default repo (load inserts missing defaults),
the package map has distinct keys and distinct record ids, and every
record is stored under its own directory. -/
theorem c6_roundtrip (i : SkillsIndex) (db : DB)
    (hreset1 : db.repos = []) (hreset2 : db.skills = [])
    (hrk : (i.repos.map (fun r => (r.owner, r.name))).Nodup)
    (hsk : (keysA i.skills).Nodup)
    (hid : (i.skills.map (fun p => p.2.id)).Nodup)
    (hdir : ∀ p ∈ i.skills, p.2.directory = p.1)
    (hdef : ∀ r0 ∈ defaultSkillRepos, ∃ r ∈ i.repos,
      r.owner = r0.owner ∧ r.name = r0.name) :
    (load_index (save_index i db)).1.repos = i.repos ∧
    (load_index (save_index i db)).1.skills = i.skills ∧
    (load_index (save_index i db)).1.sync_method = i.sync_method := by
  have hrepos : (save_index i db).repos = i.repos := by
    rw [save_index_repos, hreset1]
    have h := foldl_saveSkillRepo_append i.repos [] hrk
      (fun r _ x hx => absurd hx (List.not_mem_nil x))
    simpa using h
  have hskills : (save_index i db).skills = i.skills.map (fun p => (p.2.id, p.2)) := by
    rw [save_index_skills, hreset2]
    have h := foldl_saveSkill_append i.skills [] hid
      (fun p _ => rfl)
    simpa using h
  have hcov : ∀ r0 ∈ defaultSkillRepos, ∃ r ∈ (save_index i db).repos,
      r.owner = r0.owner ∧ r.name = r0.name := by
    rw [hrepos]; exact hdef
  refine ⟨?_, ?_, ?_⟩
  · show (initDefaultSkillRepos (save_index i db)).repos = i.repos
    rw [initDefaults_covered _ hcov, hrepos]
  · show ((initDefaultSkillRepos (save_index i db)).skills.map
      (fun p => (p.2.directory, p.2))).foldl (fun m p => insertA m p.1 p.2) [] = i.skills
    rw [initDefaults_skills, hskills, List.map_map]
    have hpoint : ∀ p ∈ i.skills,
        ((fun q : String × InstalledSkill => (q.2.directory, q.2)) ∘
          (fun p : String × InstalledSkill => (p.2.id, p.2))) p = p := by
      intro p hp
      show (p.2.directory, p.2) = p
      rw [hdir p hp]
    rw [map_self_of_eq _ i.skills hpoint]
    have h := foldl_insertA_append i.skills [] hsk (fun k _ => rfl)
    simpa using h
  · show (initDefaultSkillRepos (save_index i db)).syncMethod = i.sync_method
    rw [initDefaults_syncMethod, save_index_syncMethod]

/-- Index of the C6 witness: default repos, one record keyed by its own
directory. -/
def idxW6 : SkillsIndex :=
  ⟨1, .copy, defaultSkillRepos,
    [("hello", ⟨"o/r:hello", "Hello", none, "hello", none, some "o", some "r",
      some "main", SkillApps.only .claude, 3⟩)], false⟩

theorem c6_witness :
    (⟨[], [], [], .auto⟩ : DB).repos = [] ∧
    (load_index (save_index idxW6 ⟨[], [], [], .auto⟩)).1.repos = idxW6.repos ∧
    (load_index (save_index idxW6 ⟨[], [], [], .auto⟩)).1.skills = idxW6.skills ∧
    (load_index (save_index idxW6 ⟨[], [], [], .auto⟩)).1.sync_method = idxW6.sync_method :=
  ⟨rfl,
    (c6_roundtrip idxW6 ⟨[], [], [], .auto⟩ rfl rfl (by decide) (by decide) (by decide)
      (by decide) (by decide)).1,
    (c6_roundtrip idxW6 ⟨[], [], [], .auto⟩ rfl rfl (by decide) (by decide) (by decide)
      (by decide) (by decide)).2.1,
    (c6_roundtrip idxW6 ⟨[], [], [], .auto⟩ rfl rfl (by decide) (by decide) (by decide)
      (by decide) (by decide)).2.2⟩

-- ===========================================================================
-- Claim C9: scan_unmanaged soundness and merging
-- ===========================================================================

theorem nodup_snoc {α : Type} (l : List α) (a : α) (hnd : l.Nodup) (ha : a ∉ l) :
    (l ++ [a]).Nodup := by
  rw [List.nodup_append]
  refine ⟨hnd, List.nodup_singleton a, fun x hx hxa => ?_⟩
  rw [List.mem_singleton] at hxa
  exact ha (hxa ▸ hx)

theorem keysA_pushFoundIn (acc : List (String × UnmanagedSkill)) (m t : String) :
    keysA (pushFoundIn acc m t) = keysA acc := by
  induction acc with
  | nil => rfl
  | cons p xs ih =>
    by_cases hk : p.1 = m
    · simp [pushFoundIn, hk, keysA]
    · simp [pushFoundIn, hk, keysA]
      simpa [keysA] using ih

theorem pushFoundIn_mem (acc : List (String × UnmanagedSkill)) (m t : String) :
    ∀ p ∈ pushFoundIn acc m t, ∃ q ∈ acc, p.1 = q.1 ∧ p.2.directory = q.2.directory := by
  induction acc with
  | nil => intro p hp; simp [pushFoundIn] at hp
  | cons q0 xs ih =>
    intro p hp
    by_cases hk : q0.1 = m
    · simp only [pushFoundIn, if_pos hk] at hp
      rcases List.mem_cons.mp hp with he | hm
      · exact ⟨q0, List.mem_cons_self _ _, by rw [he], by rw [he]⟩
      · exact ⟨p, List.mem_cons_of_mem _ hm, rfl, rfl⟩
    · simp only [pushFoundIn, if_neg hk] at hp
      rcases List.mem_cons.mp hp with he | hm
      · exact ⟨q0, List.mem_cons_self _ _, by rw [he], by rw [he]⟩
      · obtain ⟨q, hq, h1, h2⟩ := ih p hm
        exact ⟨q, List.mem_cons_of_mem _ hq, h1, h2⟩

theorem lookupA_pushFoundIn_ne (acc : List (String × UnmanagedSkill)) (m t n : String)
    (h : n ≠ m) : lookupA (pushFoundIn acc m t) n = lookupA acc n := by
  induction acc with
  | nil => rfl
  | cons q0 xs ih =>
    have hmn : ¬ (m = n) := fun he => h he.symm
    by_cases hk : q0.1 = m
    · simp [pushFoundIn, hk, lookupA, hmn]
    · by_cases hn : q0.1 = n
      · simp [pushFoundIn, hk, lookupA, hn, hmn, h]
      · simp [pushFoundIn, hk, lookupA, hn, ih]

theorem lookupA_pushFoundIn_eq (acc : List (String × UnmanagedSkill)) (m t : String) :
    lookupA (pushFoundIn acc m t) m
      = (lookupA acc m).map (fun u => { u with found_in := u.found_in ++ [t] }) := by
  induction acc with
  | nil => rfl
  | cons q0 xs ih =>
    by_cases hk : q0.1 = m
    · simp [pushFoundIn, hk, lookupA]
    · simp [pushFoundIn, hk, lookupA, ih]

/-- Accumulator invariant of the unmanaged scan: every entry is keyed by
its own directory, no entry is managed, and keys are distinct. -/
def scanInv (managed : List String) (acc : List (String × UnmanagedSkill)) : Prop :=
  (∀ p ∈ acc, p.2.directory = p.1 ∧ p.1 ∉ managed) ∧ (keysA acc).Nodup

theorem scanEntries_inv (yp : String → Option SkillMetadata) (fs : FS)
    (managed : List String) (tag : String) :
    ∀ (es : List (String × FsEntry)) (acc : List (String × UnmanagedSkill)),
      scanInv managed acc → scanInv managed (scanEntries yp fs managed tag es acc) := by
  intro es
  induction es with
  | nil => intro acc h; exact h
  | cons p rest ih =>
    intro acc h
    obtain ⟨name, e⟩ := p
    simp only [scanEntries]
    cases hets : entryToDir fs e with
    | none => exact ih acc h
    | some d =>
      by_cases hdot : startsDot name = true
      · simp only [if_pos hdot]
        exact ih acc h
      · simp only [if_neg hdot]
        by_cases hman : managed.contains name = true
        · simp only [if_pos hman]
          exact ih acc h
        · simp only [if_neg hman]
          cases hl : lookupA acc name with
          | some u =>
            apply ih
            constructor
            · intro p hp
              obtain ⟨q, hq, h1, h2⟩ := pushFoundIn_mem acc name tag p hp
              exact ⟨by rw [h2, h1, (h.1 q hq).1], by rw [h1]; exact (h.1 q hq).2⟩
            · rw [keysA_pushFoundIn]
              exact h.2
          | none =>
            apply ih
            constructor
            · intro p hp
              rcases List.mem_append.mp hp with hpa | hpn
              · exact h.1 p hpa
              · have hpe : p = (name,
                    { directory := name, name := (scanMeta yp d name).1,
                      description := (scanMeta yp d name).2, found_in := [tag] }) := by
                  simpa using hpn
                rw [hpe]
                refine ⟨rfl, ?_⟩
                intro hmem
                exact hman ((containsStr managed name).mpr hmem)
            · have : keysA (acc ++ [(name,
                  { directory := name, name := (scanMeta yp d name).1,
                    description := (scanMeta yp d name).2, found_in := [tag] })])
                  = keysA acc ++ [name] := by simp [keysA]
              rw [this]
              exact nodup_snoc _ _ h.2 ((lookupA_eq_none_iff acc name).mp hl)

theorem scanApps_inv (yp : String → Option SkillMetadata) (fs : FS)
    (managed : List String) :
    ∀ (apps : List AppType) (acc : List (String × UnmanagedSkill)),
      scanInv managed acc → scanInv managed (scanApps yp fs managed apps acc) := by
  intro apps
  induction apps with
  | nil => intro acc h; exact h
  | cons a rest ih =>
    intro acc h
    simp only [scanApps]
    cases har : appRoot fs a with
    | none => exact ih acc h
    | some entries => exact ih _ (scanEntries_inv yp fs managed (appTag a) entries acc h)

/-- An accumulator already records the tag for the named directory. -/
def hasTag (acc : List (String × UnmanagedSkill)) (name tag : String) : Prop :=
  ∃ u, lookupA acc name = some u ∧ tag ∈ u.found_in

theorem hasTag_pushFoundIn (acc : List (String × UnmanagedSkill)) (m t name tag : String)
    (h : hasTag acc name tag) : hasTag (pushFoundIn acc m t) name tag := by
  obtain ⟨u, hu, htag⟩ := h
  by_cases he : name = m
  · subst he
    exact ⟨{ u with found_in := u.found_in ++ [t] },
      by rw [lookupA_pushFoundIn_eq, hu]; rfl,
      List.mem_append_left _ htag⟩
  · exact ⟨u, by rw [lookupA_pushFoundIn_ne acc m t name he]; exact hu, htag⟩

theorem hasTag_append (acc : List (String × UnmanagedSkill))
    (p : String × UnmanagedSkill) (name tag : String)
    (h : hasTag acc name tag) : hasTag (acc ++ [p]) name tag := by
  obtain ⟨u, hu, htag⟩ := h
  refine ⟨u, ?_, htag⟩
  rw [lookupA_append, hu]

theorem scanEntries_hasTag_mono (yp : String → Option SkillMetadata) (fs : FS)
    (managed : List String) (tag : String) :
    ∀ (es : List (String × FsEntry)) (acc : List (String × UnmanagedSkill))
      (name t : String), hasTag acc name t →
      hasTag (scanEntries yp fs managed tag es acc) name t := by
  intro es
  induction es with
  | nil => intro acc name t h; exact h
  | cons p rest ih =>
    intro acc name t h
    obtain ⟨n0, e0⟩ := p
    simp only [scanEntries]
    cases hets : entryToDir fs e0 with
    | none => exact ih acc name t h
    | some d =>
      by_cases hdot : startsDot n0 = true
      · simp only [if_pos hdot]; exact ih acc name t h
      · simp only [if_neg hdot]
        by_cases hman : managed.contains n0 = true
        · simp only [if_pos hman]; exact ih acc name t h
        · simp only [if_neg hman]
          cases hl : lookupA acc n0 with
          | some u => exact ih _ name t (hasTag_pushFoundIn acc n0 tag name t h)
          | none => exact ih _ name t (hasTag_append acc _ name t h)

theorem scanEntries_establishes (yp : String → Option SkillMetadata) (fs : FS)
    (managed : List String) (tag : String) :
    ∀ (es : List (String × FsEntry)) (acc : List (String × UnmanagedSkill))
      (name : String) (e : FsEntry),
      (name, e) ∈ es → (entryToDir fs e).isSome = true →
      startsDot name = false → managed.contains name = false →
      hasTag (scanEntries yp fs managed tag es acc) name tag := by
  intro es
  induction es with
  | nil => intro acc name e hmem; simp at hmem
  | cons p rest ih =>
    intro acc name e hmem hdir hdot hman
    obtain ⟨n0, e0⟩ := p
    rcases List.mem_cons.mp hmem with he | hm
    · injection he with h1 h2
      subst h1
      subst h2
      simp only [scanEntries]
      cases hets : entryToDir fs e with
      | none => rw [hets] at hdir; simp at hdir
      | some d =>
        have hdot2 : ¬ startsDot name = true := by rw [hdot]; simp
        have hman2 : ¬ managed.contains name = true := by rw [hman]; simp
        simp only [if_neg hdot2, if_neg hman2]
        cases hl : lookupA acc name with
        | some u =>
          apply scanEntries_hasTag_mono
          show hasTag (pushFoundIn acc name tag) name tag
          exact ⟨{ u with found_in := u.found_in ++ [tag] },
            by rw [lookupA_pushFoundIn_eq, hl]; rfl,
            List.mem_append_right _ (List.mem_singleton_self tag)⟩
        | none =>
          apply scanEntries_hasTag_mono
          show hasTag (acc ++ [(name,
            { directory := name, name := (scanMeta yp d name).1,
              description := (scanMeta yp d name).2, found_in := [tag] })]) name tag
          refine ⟨_, lookupA_snoc_self _ _ _ hl, ?_⟩
          exact List.mem_singleton_self tag
    · simp only [scanEntries]
      cases hets : entryToDir fs e0 with
      | none => exact ih acc name e hm hdir hdot hman
      | some d =>
        by_cases hdot0 : startsDot n0 = true
        · simp only [if_pos hdot0]; exact ih acc name e hm hdir hdot hman
        · simp only [if_neg hdot0]
          by_cases hman0 : managed.contains n0 = true
          · simp only [if_pos hman0]; exact ih acc name e hm hdir hdot hman
          · simp only [if_neg hman0]
            cases hl : lookupA acc n0 with
            | some u => exact ih _ name e hm hdir hdot hman
            | none => exact ih _ name e hm hdir hdot hman

theorem scanApps_hasTag_mono (yp : String → Option SkillMetadata) (fs : FS)
    (managed : List String) :
    ∀ (apps : List AppType) (acc : List (String × UnmanagedSkill)) (name t : String),
      hasTag acc name t → hasTag (scanApps yp fs managed apps acc) name t := by
  intro apps
  induction apps with
  | nil => intro acc name t h; exact h
  | cons a rest ih =>
    intro acc name t h
    simp only [scanApps]
    cases har : appRoot fs a with
    | none => exact ih acc name t h
    | some entries =>
      exact ih _ name t (scanEntries_hasTag_mono yp fs managed (appTag a) entries acc name t h)

theorem scanApps_establishes (yp : String → Option SkillMetadata) (fs : FS)
    (managed : List String) :
    ∀ (apps : List AppType) (acc : List (String × UnmanagedSkill)) (app : AppType)
      (entries : List (String × FsEntry)) (name : String) (e : FsEntry),
      app ∈ apps → appRoot fs app = some entries → (name, e) ∈ entries →
      (entryToDir fs e).isSome = true → startsDot name = false →
      managed.contains name = false →
      hasTag (scanApps yp fs managed apps acc) name (appTag app) := by
  intro apps
  induction apps with
  | nil => intro acc app entries name e hmem; simp at hmem
  | cons a rest ih =>
    intro acc app entries name e hmem hroot hent hdir hdot hman
    rcases List.mem_cons.mp hmem with he | hm
    · subst he
      simp only [scanApps]
      rw [hroot]
      exact scanApps_hasTag_mono yp fs managed rest _ name (appTag app)
        (scanEntries_establishes yp fs managed (appTag app) entries acc name e
          hent hdir hdot hman)
    · simp only [scanApps]
      cases har : appRoot fs a with
      | none => exact ih acc app entries name e hm hroot hent hdir hdot hman
      | some es0 => exact ih _ app entries name e hm hroot hent hdir hdot hman

theorem map_congr_mem {α β : Type} (l : List α) (f g : α → β)
    (h : ∀ a ∈ l, f a = g a) : l.map f = l.map g := by
  induction l with
  | nil => rfl
  | cons a l ih =>
    rw [List.map_cons, List.map_cons, h a (List.mem_cons_self _ _),
      ih (fun b hb => h b (List.mem_cons_of_mem _ hb))]

/-- C9: scan_unmanaged is sound and merging: no returned entry's directory
is a key (case-sensitively) of the loaded package map; the returned
directories are pairwise distinct (one entry per name); and every
application whose existing mirror root holds a non-dot directory entry of
an unmanaged name contributes its tag to that name's single entry's
found_in list. -/
theorem c9_scan_unmanaged_sound (yp : String → Option SkillMetadata) (db : DB)
    (fs : FS) :
    (∀ u ∈ (scan_unmanaged yp db fs).2,
      lookupA (load_index db).1.skills u.directory = none) ∧
    ((scan_unmanaged yp db fs).2.map (fun u => u.directory)).Nodup ∧
    (∀ app ∈ [AppType.claude, AppType.codex, AppType.gemini],
      ∀ entries, appRoot fs app = some entries →
      ∀ name e, (name, e) ∈ entries → (entryToDir fs e).isSome = true →
      startsDot name = false → lookupA (load_index db).1.skills name = none →
      ∃ u, u ∈ (scan_unmanaged yp db fs).2 ∧ u.directory = name
        ∧ appTag app ∈ u.found_in) := by
  simp only [scan_unmanaged]
  have hbase : scanInv (keysA (load_index db).1.skills) [] :=
    ⟨fun p hp => absurd hp (List.not_mem_nil p), List.nodup_nil⟩
  have hinv := scanApps_inv yp fs (keysA (load_index db).1.skills)
    [AppType.claude, AppType.codex, AppType.gemini] [] hbase
  refine ⟨?_, ?_, ?_⟩
  · intro u hu
    obtain ⟨p, hp, hup⟩ := List.mem_map.mp hu
    rw [← hup, (hinv.1 p hp).1]
    exact (lookupA_eq_none_iff _ _).mpr (hinv.1 p hp).2
  · rw [List.map_map]
    have heq : (scanApps yp fs (keysA (load_index db).1.skills)
        [AppType.claude, AppType.codex, AppType.gemini] []).map
          ((fun u : UnmanagedSkill => u.directory) ∘ Prod.snd)
        = (scanApps yp fs (keysA (load_index db).1.skills)
        [AppType.claude, AppType.codex, AppType.gemini] []).map Prod.fst := by
      apply map_congr_mem
      intro p hp
      exact (hinv.1 p hp).1
    rw [heq]
    exact hinv.2
  · intro app happ entries hroot name e hent hdir hdot hlook
    have hnm : name ∉ keysA (load_index db).1.skills :=
      (lookupA_eq_none_iff _ _).mp hlook
    have hcont : (keysA (load_index db).1.skills).contains name = false := by
      rw [Bool.eq_false_iff]
      intro hc
      exact hnm ((containsStr _ name).mp hc)
    obtain ⟨u, hu, htag⟩ := scanApps_establishes yp fs
      (keysA (load_index db).1.skills)
      [AppType.claude, AppType.codex, AppType.gemini] [] app entries name e
      happ hroot hent hdir hdot hcont
    refine ⟨u, List.mem_map_of_mem Prod.snd (lookupA_some_mem hu), ?_, htag⟩
    exact (hinv.1 (name, u) (lookupA_some_mem hu)).1

/-- Mirror state for the C9 witness: claude holds one unmanaged directory. -/
def fsW9 : FS := ⟨[], some [("foo", .dirE ⟨[]⟩)], none, none⟩

theorem c9_witness :
    appRoot fsW9 .claude = some [("foo", FsEntry.dirE ⟨[]⟩)] ∧
    (∃ u, u ∈ (scan_unmanaged noYaml ⟨[], [], [], .auto⟩ fsW9).2 ∧
      u.directory = "foo" ∧ appTag .claude ∈ u.found_in) :=
  ⟨rfl,
    (c9_scan_unmanaged_sound noYaml ⟨[], [], [], .auto⟩ fsW9).2.2 .claude (by decide)
      [("foo", .dirE ⟨[]⟩)] rfl "foo" (.dirE ⟨[]⟩) (by decide) (by decide)
      (by decide) (by decide)⟩
